import Mathlib

/-! Concurrent crawler (`hw3_10.go`).

A shallow embedding of the crawler of `hw3_10.go`: the visited set `SafeMarker`
with its methods `Mark` and `Already`, the canned `fakeFetcher`, and the body of
`Crawl` as a small-step transition function on a pool of tasks (one task per
goroutine running `Crawl`).  A run of the program is a schedule: the list of the
indices of the tasks that take the successive steps, so that a statement about
every schedule is a statement about every interleaving.

Each step is one statement of the source acting on the shared state:

* `entry`    line 42, the test `depth <= 0`;
* `mark`     line 45, `m.Mark(url)`;
* `fetch`    lines 47-52, `fetcher.Fetch(url)` and the print of its outcome;
* `loop`     lines 53-56 and 60, the head of the `range` loop and `m.Already(u)`;
* `add`      line 57, `g.Add(1)`;
* `spawn`    line 58, `go Crawl(u, depth-1, fetcher, g)`;
* `exit`     line 40, the deferred `g.Done()`;
* `finished` the call has returned.

The `depth` argument is a Go `int`; `depth-1` is only computed when `depth > 0`,
so it cannot wrap around and `Int` carries it exactly.  The fetcher is a function
of the url, as `fakeFetcher` is.  The counter of the `sync.WaitGroup` is an `Int`:
Go panics when it becomes negative, which the counter invariant below rules out
in every run.
-/

namespace Crawler

/-! ## Data model -/

/-- The `fakeResult` struct: a page body and the urls found on the page. -/
structure fakeResult where
  body : String
  urls : List String
deriving DecidableEq, Repr

/-- The `Fetcher` interface: `Fetch(url)` returns `(body, urls, err)`; a non-nil
`err` is `Except.error` carrying the error text, a nil one is `Except.ok`. -/
abbrev Fetcher := String → Except String fakeResult

/-- The `fakeFetcher` map type `map[string]*fakeResult`, as an association list. -/
abbrev fakeFetcher := List (String × fakeResult)

/-- The method `fakeFetcher.Fetch` (lines 81-86). -/
def fakeFetcher.Fetch (f : fakeFetcher) : Fetcher := fun url =>
  match f.lookup url with
  | some res => .ok res
  | none => .error ("not found: " ++ url)

/-- The populated `fetcher` variable (lines 89-120). -/
def fetcher : fakeFetcher :=
  [ ("https://golang.org/",
      ⟨"The Go Programming Language",
       ["https://golang.org/pkg/", "https://golang.org/cmd/"]⟩),
    ("https://golang.org/pkg/",
      ⟨"Packages",
       ["https://golang.org/", "https://golang.org/cmd/",
        "https://golang.org/pkg/fmt/", "https://golang.org/pkg/os/"]⟩),
    ("https://golang.org/pkg/fmt/",
      ⟨"Package fmt", ["https://golang.org/", "https://golang.org/pkg/"]⟩),
    ("https://golang.org/pkg/os/",
      ⟨"Package os", ["https://golang.org/", "https://golang.org/pkg/"]⟩) ]

/-- The `SafeMarker` struct.  The field `v` is the `map[string]bool`, read the way
the source reads it: `v key` is the value of `m.v[key]`, `false` for an absent
key.  The mutex makes each method one atomic step, which is how the methods are
used below. -/
structure SafeMarker where
  v : String → Bool

/-- The method `SafeMarker.Mark` (lines 19-24): `m.v[key] = true`. -/
def SafeMarker.Mark (m : SafeMarker) (key : String) : SafeMarker :=
  ⟨fun k => if k = key then true else m.v k⟩

/-- The method `SafeMarker.Already` (lines 26-31): the value read, and the marker
after the call. -/
def SafeMarker.Already (m : SafeMarker) (key : String) : Bool × SafeMarker :=
  (m.v key, m)

/-- The global `m` (line 33): a marker over an empty map. -/
def m : SafeMarker := ⟨fun _ => false⟩

/-- What `Crawl` prints: `fmt.Println(err)` or the `found:` line with its two
arguments. -/
inductive Output where
  | err (msg : String)
  | found (url body : String)
deriving DecidableEq, Repr

/-- Program points of one call of `Crawl`. -/
inductive Pc where
  | entry
  | mark
  | fetch
  | loop (rest : List String)
  | add (u : String) (rest : List String)
  | spawn (u : String) (rest : List String)
  | exit
  | finished
deriving DecidableEq, Repr

/-- One call of `Crawl`: its arguments `url` and `depth`, the index of the task
whose `go` statement started it (`none` for the call made by `main`), and its
program point. -/
structure Task where
  url : String
  depth : Int
  parent : Option Nat
  pc : Pc
deriving DecidableEq, Repr

/-- The state shared by all tasks: the marker `m`, the counter of the WaitGroup
`g`, the urls on which `Fetch` was called (in call order) and the printed
output. -/
structure Shared where
  m : SafeMarker
  g : Int
  fetched : List String
  printed : List Output

/-- A state of the program: the shared state and the pool of tasks. -/
structure State where
  shared : Shared
  tasks : List Task

/-! ## Operations -/

/-- One step of the task `t`, whose index in the pool is `self`, on the shared
state `s`: the shared state and the task after the step, and the tasks it
started.  A finished task has no step. -/
def Crawl.step (fetcher : Fetcher) (self : Nat) (s : Shared) (t : Task) :
    Option (Shared × Task × List Task) :=
  match t.pc with
  | .entry =>
    if t.depth ≤ 0 then some (s, { t with pc := .exit }, [])
    else some (s, { t with pc := .mark }, [])
  | .mark => some ({ s with m := s.m.Mark t.url }, { t with pc := .fetch }, [])
  | .fetch =>
    match fetcher t.url with
    | .error e =>
      some ({ s with fetched := s.fetched ++ [t.url], printed := s.printed ++ [.err e] },
            { t with pc := .exit }, [])
    | .ok res =>
      some ({ s with fetched := s.fetched ++ [t.url],
                     printed := s.printed ++ [.found t.url res.body] },
            { t with pc := .loop res.urls }, [])
  | .loop [] => some (s, { t with pc := .exit }, [])
  | .loop (u :: rest) =>
    if (s.m.Already u).1 then
      some ({ s with m := (s.m.Already u).2 }, { t with pc := .loop rest }, [])
    else
      some ({ s with m := (s.m.Already u).2 }, { t with pc := .add u rest }, [])
  | .add u rest => some ({ s with g := s.g + 1 }, { t with pc := .spawn u rest }, [])
  | .spawn u rest =>
    some (s, { t with pc := .loop rest }, [⟨u, t.depth - 1, some self, .entry⟩])
  | .exit => some ({ s with g := s.g - 1 }, { t with pc := .finished }, [])
  | .finished => none

/-- The task of index `i` takes one step; the tasks it starts join the pool. -/
def State.stepAt (fetcher : Fetcher) (i : Nat) (s : State) : Option State :=
  match s.tasks[i]? with
  | none => none
  | some t =>
    match Crawl.step fetcher i s.shared t with
    | none => none
    | some (sh, t', kids) => some ⟨sh, s.tasks.set i t' ++ kids⟩

/-- The run of a schedule: the tasks named by `sched` step one after the other. -/
def State.run (fetcher : Fetcher) : List Nat → State → Option State
  | [], s => some s
  | i :: sched, s =>
    match s.stepAt fetcher i with
    | none => none
    | some s' => State.run fetcher sched s'

/-- The state in which the entry point calls `Crawl(url, depth, fetcher, g)`
(lines 67-69): the marker is the global `m`, still empty, and `g.Add(1)` has
run. -/
def start (url : String) (depth : Int) : State :=
  ⟨⟨m, 1, [], []⟩, [⟨url, depth, none, .entry⟩]⟩

/-- The state in which `main` calls `Crawl` (line 69). -/
def main : State := start "https://golang.org/" 4

/-- The states of the runs of `Crawl(url, depth, fetcher, g)` from `start`. -/
def Reachable (fetcher : Fetcher) (url : String) (depth : Int) (s : State) : Prop :=
  ∃ sched, State.run fetcher sched (start url depth) = some s

/-- The call `g.Wait()` of the entry point (line 70) can return in `s`: the call
of `Crawl` it made has returned and the counter is zero. -/
def waitReturns (s : State) : Prop :=
  (∀ t ∈ s.tasks.head?, t.pc = .finished) ∧ s.shared.g = 0

/-- The task has not run its deferred `g.Done()`. -/
def Task.live (t : Task) : Bool := t.pc ≠ .finished

/-- The task stands between `g.Add(1)` (line 57) and the `go` statement (line 58):
it has registered a child that is not started yet. -/
def Task.registering (t : Task) : Bool :=
  match t.pc with
  | .spawn _ _ => true
  | _ => false

/-- Number of tasks, started by the entry point or by a `go` statement, that have
not run their deferred `g.Done()`. -/
def running (s : State) : Nat := s.tasks.countP Task.live

/-- Number of children registered by `g.Add(1)` whose `go` statement has not run. -/
def pending (s : State) : Nat := s.tasks.countP Task.registering

/-- A task runs alone for `fuel` steps from the shared state `s`: the shared
state and the task at the end, and the tasks it started. -/
def Crawl.runAlone (fetcher : Fetcher) (self : Nat) :
    Nat → Shared → Task → Shared × Task × List Task
  | 0, s, t => (s, t, [])
  | fuel + 1, s, t =>
    match Crawl.step fetcher self s t with
    | none => (s, t, [])
    | some (s', t', kids) =>
      let r := Crawl.runAlone fetcher self fuel s' t'
      (r.1, r.2.1, kids ++ r.2.2)

/-- The url `y` is in the url list of a successful fetch of `x`. -/
def Links (fetcher : Fetcher) (x y : String) : Prop :=
  ∃ res, fetcher x = .ok res ∧ y ∈ res.urls

/-- The url is reachable from `root` by a chain of `k` links, each taken from the
url list of a successful fetch of the previous url. -/
inductive Hops (fetcher : Fetcher) (root : String) : Nat → String → Prop where
  | root : Hops fetcher root 0 root
  | link {k : Nat} {x y : String} :
    Hops fetcher root k x → Links fetcher x y → Hops fetcher root (k + 1) y

/-- What holds of every task of a run of `Crawl(root, depth, ...)`: its url is some
`k` links away from `root`, `k` at most `depth`, and its depth is `depth - k`;
past the test of line 42
its depth is positive, and the urls it still has to loop over are links of its
url. -/
def Task.inRange (fetcher : Fetcher) (root : String) (depth : Int) (t : Task) : Prop :=
  (∃ k : Nat, k ≤ depth.toNat ∧ Hops fetcher root k t.url ∧ t.depth = depth - k) ∧
  match t.pc with
  | .entry => True
  | .exit => True
  | .finished => True
  | .mark => 0 < t.depth
  | .fetch => 0 < t.depth
  | .loop rest => 0 < t.depth ∧ ∀ y ∈ rest, Links fetcher t.url y
  | .add u rest => 0 < t.depth ∧ Links fetcher t.url u ∧ ∀ y ∈ rest, Links fetcher t.url y
  | .spawn u rest => 0 < t.depth ∧ Links fetcher t.url u ∧ ∀ y ∈ rest, Links fetcher t.url y

/-- Steps left in the loop of lines 53-59 over `rest`, when a task started on
`u` takes at most `c u` steps, its own and those of the tasks it starts: three
steps per url (`Already`, `g.Add(1)`, `go`) and one to leave the loop. -/
def loopCost (c : String → Nat) (rest : List String) : Nat :=
  (rest.map fun u => 3 + c u).sum + 1

/-- A bound on the number of steps of `Crawl(url, n, ...)` and of all the tasks
it starts, directly or not. -/
def cost (fetcher : Fetcher) : Nat → String → Nat
  | 0, _ => 2
  | n + 1, url =>
    4 + match fetcher url with
        | .error _ => 0
        | .ok res => loopCost (cost fetcher n) res.urls

/-- A bound on the number of steps left to the task `t` and to all the tasks it
has still to start, directly or not. -/
def Task.cost (fetcher : Fetcher) (t : Task) : Nat :=
  let c := Crawler.cost fetcher (t.depth - 1).toNat
  let body :=
    match fetcher t.url with
    | .error _ => 0
    | .ok res => loopCost c res.urls
  match t.pc with
  | .entry => if t.depth ≤ 0 then 2 else 4 + body
  | .mark => 3 + body
  | .fetch => 2 + body
  | .loop rest => loopCost c rest + 1
  | .add u rest => 2 + c u + loopCost c rest + 1
  | .spawn u rest => 1 + c u + loopCost c rest + 1
  | .exit => 1
  | .finished => 0

/-- A bound on the number of steps left to the whole pool. -/
def State.cost (fetcher : Fetcher) (s : State) : Nat :=
  (s.tasks.map (Task.cost fetcher)).sum

/-- The fetcher that answers on `url` with a page `body` without links, and like
`fetcher` on any other url. -/
def succeedEmpty (fetcher : Fetcher) (url body : String) : Fetcher := fun x =>
  if x = url then .ok ⟨body, []⟩ else fetcher x

/-- The shape of the canned data of `fetcher` on five urls: `A` links to `B` and
`C`, `B` to `A`, `C`, `D` and `E`, `D` and `E` to `A` and `B`, and the fetch of
`C` fails. -/
structure Canned (f : Fetcher) (A B C D E : String) : Prop where
  nodup : [A, B, C, D, E].Nodup
  fetchA : ∃ body, f A = .ok ⟨body, [B, C]⟩
  fetchB : ∃ body, f B = .ok ⟨body, [A, C, D, E]⟩
  fetchC : ∃ e, f C = .error e
  fetchD : ∃ body, f D = .ok ⟨body, [A, B]⟩
  fetchE : ∃ body, f E = .ok ⟨body, [A, B]⟩

/-- Program points of the task of `A` before it has dealt with its link `B`. -/
def rootBeforeB (B C : String) : List Pc :=
  [.entry, .mark, .fetch, .loop [B, C], .add B [C], .spawn B [C]]

/-- Program points of the task of `A` before it has dealt with its link `C`. -/
def rootBeforeC (B C : String) : List Pc :=
  rootBeforeB B C ++ [.loop [C], .add C [], .spawn C []]

/-- Program points of the task of `A`. -/
def rootPcs (B C : String) : List Pc :=
  rootBeforeC B C ++ [.loop [], .exit, .finished]

/-- Program points of a task of `B` before it has dealt with its link `D`. -/
def pkgBeforeD (A C D E : String) : List Pc :=
  [.entry, .mark, .fetch, .loop [A, C, D, E], .loop [C, D, E], .add C [D, E],
   .spawn C [D, E], .loop [D, E], .add D [E], .spawn D [E]]

/-- Program points of a task of `B` before it has dealt with its link `E`. -/
def pkgBeforeE (A C D E : String) : List Pc :=
  pkgBeforeD A C D E ++ [.loop [E], .add E [], .spawn E []]

/-- Program points of a task of `B`. -/
def pkgPcs (A C D E : String) : List Pc :=
  pkgBeforeE A C D E ++ [.loop [], .exit, .finished]

/-- Program points of a task of `C`, whose fetch fails. -/
def failPcs : List Pc := [.entry, .mark, .fetch, .exit, .finished]

/-- Program points of a task of `D` or `E`, which finds its two links marked. -/
def subPcs (A B : String) : List Pc :=
  [.entry, .mark, .fetch, .loop [A, B], .loop [B], .loop [], .exit, .finished]

/-- The tasks of a run of `Crawl(A, 4, ...)` on canned data, with the marker `m`:
a task of `B`, `D` or `E` only exists once `A` is marked, a task of `D` or `E`
once `B` is marked, and a task has marked its own url past line 45. -/
def Shape (A B C D E : String) (m : SafeMarker) (t : Task) : Prop :=
  (t.url = A ∧ t.depth = 4 ∧ t.pc ∈ rootPcs B C ∧
    (t.pc ≠ .entry → t.pc ≠ .mark → m.v A = true)) ∨
  (t.url = B ∧ t.depth = 3 ∧ t.pc ∈ pkgPcs A C D E ∧ m.v A = true ∧
    (t.pc ≠ .entry → t.pc ≠ .mark → m.v B = true)) ∨
  (t.url = C ∧ (t.depth = 3 ∨ t.depth = 2) ∧ t.pc ∈ failPcs) ∨
  (t.url = D ∧ t.depth = 2 ∧ t.pc ∈ subPcs A B ∧ m.v A = true ∧ m.v B = true) ∨
  (t.url = E ∧ t.depth = 2 ∧ t.pc ∈ subPcs A B ∧ m.v A = true ∧ m.v B = true)

/-- The task runs on `u`. -/
def onUrl (u : String) (t : Task) : Bool := decide (t.url = u)

/-- The task runs on `u` and has called `Fetch`. -/
def fetchedOn (u : String) (t : Task) : Bool :=
  decide (t.url = u ∧ t.pc ≠ .entry ∧ t.pc ≠ .mark ∧ t.pc ≠ .fetch)

/-- The task is one of `B`, or the task of `A` that has still to start it. -/
def owesB (A B C : String) (t : Task) : Bool :=
  decide (t.url = A ∧ t.pc ∈ rootBeforeB B C) || decide (t.url = B)

/-- The task is one of `C`, or the task of `A` that has still to deal with `C`. -/
def owesC (A B C : String) (t : Task) : Bool :=
  decide (t.url = A ∧ t.pc ∈ rootBeforeC B C) || decide (t.url = C)

/-- The task is one of `D`, or a task that has still to start it or its parent. -/
def owesD (A B C D E : String) (t : Task) : Bool :=
  decide (t.url = A ∧ t.pc ∈ rootBeforeB B C) ||
  decide (t.url = B ∧ t.pc ∈ pkgBeforeD A C D E) || decide (t.url = D)

/-- The task is one of `E`, or a task that has still to start it or its parent. -/
def owesE (A B C D E : String) (t : Task) : Bool :=
  decide (t.url = A ∧ t.pc ∈ rootBeforeB B C) ||
  decide (t.url = B ∧ t.pc ∈ pkgBeforeE A C D E) || decide (t.url = E)

/-- The counting invariant of the runs of `Crawl(A, 4, ...)` on canned data, on a
marker `m`, a list `fetched` of fetched urls and a pool `tasks`: one task of `A`;
one task of `B`, `D`, `E` each, started or still to start; at least one of `C`;
a marked url has a task; and the calls of `Fetch` on a url are as many as the
tasks of that url past line 47. -/
def Counts (A B C D E : String) (m : SafeMarker) (fetched : List String)
    (tasks : List Task) : Prop :=
  tasks.countP (onUrl A) = 1 ∧
  tasks.countP (owesB A B C) = 1 ∧
  0 < tasks.countP (owesC A B C) ∧
  tasks.countP (owesD A B C D E) = 1 ∧
  tasks.countP (owesE A B C D E) = 1 ∧
  (m.v B).toNat ≤ tasks.countP (onUrl B) ∧
  (m.v C).toNat ≤ tasks.countP (onUrl C) ∧
  (m.v D).toNat ≤ tasks.countP (onUrl D) ∧
  (m.v E).toNat ≤ tasks.countP (onUrl E) ∧
  fetched.count A = tasks.countP (fetchedOn A) ∧
  fetched.count B = tasks.countP (fetchedOn B) ∧
  fetched.count C = tasks.countP (fetchedOn C) ∧
  fetched.count D = tasks.countP (fetchedOn D) ∧
  fetched.count E = tasks.countP (fetchedOn E)

/-- The invariant of the runs of `Crawl(A, 4, ...)` on canned data. -/
def Scene (A B C D E : String) (s : State) : Prop :=
  (∀ t ∈ s.tasks, Shape A B C D E s.shared.m t) ∧
  Counts A B C D E s.shared.m s.shared.fetched s.tasks

/-! ## The steps of a task, case by case -/

theorem Crawl.step_cases {fetcher : Fetcher} {self : Nat} {s : Shared} {url : String}
    {depth : Int} {parent : Option Nat} {pc : Pc} {r : Shared × Task × List Task}
    (h : Crawl.step fetcher self s ⟨url, depth, parent, pc⟩ = some r) :
    (pc = .entry ∧ depth ≤ 0 ∧ r = (s, ⟨url, depth, parent, .exit⟩, [])) ∨
    (pc = .entry ∧ 0 < depth ∧ r = (s, ⟨url, depth, parent, .mark⟩, [])) ∨
    (pc = .mark ∧ r = (⟨s.m.Mark url, s.g, s.fetched, s.printed⟩,
        ⟨url, depth, parent, .fetch⟩, [])) ∨
    (∃ e, pc = .fetch ∧ fetcher url = .error e ∧
      r = (⟨s.m, s.g, s.fetched ++ [url], s.printed ++ [.err e]⟩,
        ⟨url, depth, parent, .exit⟩, [])) ∨
    (∃ res, pc = .fetch ∧ fetcher url = .ok res ∧
      r = (⟨s.m, s.g, s.fetched ++ [url], s.printed ++ [.found url res.body]⟩,
        ⟨url, depth, parent, .loop res.urls⟩, [])) ∨
    (pc = .loop [] ∧ r = (s, ⟨url, depth, parent, .exit⟩, [])) ∨
    (∃ u rest, pc = .loop (u :: rest) ∧ s.m.v u = true ∧
      r = (s, ⟨url, depth, parent, .loop rest⟩, [])) ∨
    (∃ u rest, pc = .loop (u :: rest) ∧ s.m.v u = false ∧
      r = (s, ⟨url, depth, parent, .add u rest⟩, [])) ∨
    (∃ u rest, pc = .add u rest ∧
      r = (⟨s.m, s.g + 1, s.fetched, s.printed⟩, ⟨url, depth, parent, .spawn u rest⟩, [])) ∨
    (∃ u rest, pc = .spawn u rest ∧
      r = (s, ⟨url, depth, parent, .loop rest⟩, [⟨u, depth - 1, some self, .entry⟩])) ∨
    (pc = .exit ∧ r = (⟨s.m, s.g - 1, s.fetched, s.printed⟩,
        ⟨url, depth, parent, .finished⟩, [])) := by
  cases pc with
  | entry =>
    by_cases hd : depth ≤ 0
    · simp [Crawl.step, hd] at h; simp [hd, ← h]
    · simp [Crawl.step, hd] at h; simp [← h]; omega
  | mark => simp [Crawl.step] at h; simp [← h]
  | fetch =>
    cases hf : fetcher url with
    | error e => simp [Crawl.step, hf] at h; simp [← h]
    | ok res => simp [Crawl.step, hf] at h; simp [← h]
  | loop rest =>
    cases rest with
    | nil => simp [Crawl.step] at h; simp [← h]
    | cons u rest =>
      cases hv : s.m.v u
      · simp [Crawl.step, SafeMarker.Already, hv] at h; simp [← h, hv]
        exact ⟨u, rest, ⟨rfl, rfl⟩, hv, rfl, rfl⟩
      · simp [Crawl.step, SafeMarker.Already, hv] at h; simp [← h, hv]
  | add u rest => simp [Crawl.step] at h; simp [← h]
  | spawn u rest =>
    simp [Crawl.step] at h; simp [← h]
    exact ⟨u, rest, ⟨rfl, rfl⟩, rfl, rfl⟩
  | exit => simp [Crawl.step] at h; simp [← h]
  | finished => simp [Crawl.step] at h

theorem getElem?_split {α : Type} : ∀ (l : List α) (i : Nat) (t : α), l[i]? = some t →
    ∃ a b, l = a ++ t :: b ∧ a.length = i ∧ ∀ t', l.set i t' = a ++ t' :: b
  | [], i, t, h => by simp at h
  | x :: l, 0, t, h => by
    simp at h; subst h; exact ⟨[], l, by simp⟩
  | x :: l, i + 1, t, h => by
    simp at h
    obtain ⟨a, b, hl, hlen, hset⟩ := getElem?_split l i t h
    exact ⟨x :: a, b, by simp [hl], by simp [hlen], fun t' => by simp [hset]⟩

/-- A step of the pool, unfolded: the stepping task `t` sits between `a` and `b`. -/
theorem State.stepAt_cases {fetcher : Fetcher} {i : Nat} {s s' : State}
    (h : s.stepAt fetcher i = some s') :
    ∃ a t b sh t' kids, s.tasks = a ++ t :: b ∧ a.length = i ∧
      Crawl.step fetcher i s.shared t = some (sh, t', kids) ∧
      s' = ⟨sh, a ++ t' :: b ++ kids⟩ := by
  unfold State.stepAt at h
  cases hg : s.tasks[i]? with
  | none => simp [hg] at h
  | some t =>
    obtain ⟨a, b, hl, hlen, hset⟩ := getElem?_split _ _ _ hg
    cases hs : Crawl.step fetcher i s.shared t with
    | none => simp [hg, hs] at h
    | some r =>
      obtain ⟨sh, t', kids⟩ := r
      simp [hg, hs] at h
      exact ⟨a, t, b, sh, t', kids, hl, hlen, hs, by simp [← h, hset]⟩

/-- An invariant of the steps holds along every schedule. -/
theorem State.run_induction {fetcher : Fetcher} (P : State → Prop)
    (hstep : ∀ i s s', P s → s.stepAt fetcher i = some s' → P s') :
    ∀ (sched : List Nat) (s s' : State), P s → State.run fetcher sched s = some s' → P s'
  | [], s, s', hP, h => by simp [State.run] at h; exact h ▸ hP
  | i :: sched, s, s', hP, h => by
    simp only [State.run] at h
    cases hs : s.stepAt fetcher i with
    | none => simp [hs] at h
    | some s1 =>
      simp only [hs] at h
      exact State.run_induction P hstep sched s1 s' (hstep i s s1 hP hs) h

theorem Reachable.induction {fetcher : Fetcher} {url : String} {depth : Int}
    (P : State → Prop) (h0 : P (start url depth))
    (hstep : ∀ i s s', P s → s.stepAt fetcher i = some s' → P s')
    {s : State} (h : Reachable fetcher url depth s) : P s := by
  obtain ⟨sched, hr⟩ := h
  exact State.run_induction P hstep sched _ _ h0 hr

/-! ## Depth exhausted -/

/-- C1: a call `Crawl(url, depth, fetcher, g)` with `depth ≤ 0` has exactly two
steps, whatever the shared state at each of them (so under every interleaving):
the first changes nothing, the second is the deferred `g.Done()`; neither calls
`Fetch`, starts a task or touches the visited set, and the task then has no
further step.  Run alone from `s`, the call leaves `s` with its counter
decreased by one. -/
theorem Crawl_depth_nonpos (fetcher : Fetcher) (url : String) (depth : Int)
    (parent : Option Nat) (self : Nat) (hd : depth ≤ 0) :
    (∀ s, Crawl.step fetcher self s ⟨url, depth, parent, .entry⟩ =
        some (s, ⟨url, depth, parent, .exit⟩, [])) ∧
    (∀ s, Crawl.step fetcher self s ⟨url, depth, parent, .exit⟩ =
        some (⟨s.m, s.g - 1, s.fetched, s.printed⟩, ⟨url, depth, parent, .finished⟩, [])) ∧
    (∀ s, Crawl.step fetcher self s ⟨url, depth, parent, .finished⟩ = none) ∧
    (∀ s fuel, Crawl.runAlone fetcher self (fuel + 2) s ⟨url, depth, parent, .entry⟩ =
        (⟨s.m, s.g - 1, s.fetched, s.printed⟩, ⟨url, depth, parent, .finished⟩, [])) := by
  have h1 : ∀ s, Crawl.step fetcher self s ⟨url, depth, parent, .entry⟩ =
      some (s, ⟨url, depth, parent, .exit⟩, []) := fun s => by simp [Crawl.step, hd]
  have h2 : ∀ s, Crawl.step fetcher self s ⟨url, depth, parent, .exit⟩ =
      some (⟨s.m, s.g - 1, s.fetched, s.printed⟩, ⟨url, depth, parent, .finished⟩, []) :=
    fun s => by simp [Crawl.step]
  have h3 : ∀ s, Crawl.step fetcher self s ⟨url, depth, parent, .finished⟩ = none :=
    fun s => by simp [Crawl.step]
  refine ⟨h1, h2, h3, fun s fuel => ?_⟩
  cases fuel with
  | zero => simp [Crawl.runAlone, h1, h2]
  | succ n => simp [Crawl.runAlone, h1, h2, h3]

theorem Crawl_depth_nonpos_witness :
    (0 : Int) ≤ 0 ∧
    Crawl.runAlone fetcher.Fetch 0 2 ⟨m, 1, [], []⟩ ⟨"https://golang.org/", 0, none, .entry⟩ =
      (⟨m, 1 - 1, [], []⟩, ⟨"https://golang.org/", 0, none, .finished⟩, []) :=
  ⟨by decide,
   (Crawl_depth_nonpos fetcher.Fetch "https://golang.org/" 0 none 0 (by decide)).2.2.2
     ⟨m, 1, [], []⟩ 0⟩

/-! ## The visited set -/

/-- A step of the pool never unmarks a key. -/
theorem State.stepAt_mono {fetcher : Fetcher} {i : Nat} {s s' : State}
    (h : s.stepAt fetcher i = some s') (k : String) (hk : s.shared.m.v k = true) :
    s'.shared.m.v k = true := by
  obtain ⟨a, ⟨url, depth, parent, pc⟩, b, sh, t', kids, -, -, hs, rfl⟩ := State.stepAt_cases h
  rcases Crawl.step_cases hs with
    ⟨-, -, hr⟩ | ⟨-, -, hr⟩ | ⟨-, hr⟩ | ⟨e, -, -, hr⟩ | ⟨res, -, -, hr⟩ | ⟨-, hr⟩ |
    ⟨u, rest, -, -, hr⟩ | ⟨u, rest, -, -, hr⟩ | ⟨u, rest, -, hr⟩ | ⟨u, rest, -, hr⟩ | ⟨-, hr⟩ <;>
  · simp only [Prod.mk.injEq] at hr
    obtain ⟨rfl, -, -⟩ := hr
    simp [SafeMarker.Mark, hk]

/-- C8: the visited set only grows.  A key for which `Already` is true is still so
after `Mark` of any key; `Already` leaves the marker as it was; and the key is
still marked after any step of any task, hence at the end of any schedule. -/
theorem visited_monotone (k : String) :
    (∀ (m : SafeMarker) (key : String),
      (m.Already k).1 = true → ((m.Mark key).Already k).1 = true) ∧
    (∀ (m : SafeMarker) (key : String), (m.Already key).2 = m) ∧
    (∀ (fetcher : Fetcher) (i : Nat) (s s' : State), s.stepAt fetcher i = some s' →
      (s.shared.m.Already k).1 = true → (s'.shared.m.Already k).1 = true) ∧
    (∀ (fetcher : Fetcher) (sched : List Nat) (s s' : State),
      State.run fetcher sched s = some s' →
      (s.shared.m.Already k).1 = true → (s'.shared.m.Already k).1 = true) := by
  refine ⟨fun m key h => ?_, fun m key => rfl, fun fetcher i s s' h hk => ?_,
    fun fetcher sched s s' h hk => ?_⟩
  · simp only [SafeMarker.Already] at h ⊢
    simp [SafeMarker.Mark, h]
  · exact State.stepAt_mono h k hk
  · exact State.run_induction (fun s => s.shared.m.v k = true)
      (fun i s s' hP hs => State.stepAt_mono hs k hP) sched s s' hk h

theorem visited_monotone_witness :
    (((m.Mark "a").Mark "b").Already "a").1 = true :=
  (visited_monotone "a").1 (m.Mark "a") "b" (by decide)

/-- C9, the claim as stated fails on the check-then-mark of the source, where the
check is `Already(id)` in the parent (line 54) and the mark is `Mark(id)` in the
task started on `id` (line 45, after the test of line 42).  In the run of `main`
in which the first call takes eleven steps and the task of `/pkg/` five, `/cmd/`
is still unmarked, a task started on it by the first call has not taken a step,
and the task of `/pkg/` has passed its own check of `/cmd/`: a second claim of
the same id succeeded.  In the complete run of `Crawl` on `/` with depth 1 the
checks of `/pkg/` and `/cmd/` pass, tasks are started on them with depth 0, and
at the end neither url is marked. -/
theorem second_check_passes_and_depth_zero_never_marks :
    (∃ s, Reachable fetcher.Fetch "https://golang.org/" 4 s ∧
      (s.shared.m.Already "https://golang.org/cmd/").1 = false ∧
      s.tasks[2]? = some ⟨"https://golang.org/cmd/", 3, some 0, .entry⟩ ∧
      s.tasks[1]? = some ⟨"https://golang.org/pkg/", 3, some 0,
        .add "https://golang.org/cmd/"
          ["https://golang.org/pkg/fmt/", "https://golang.org/pkg/os/"]⟩) ∧
    (∃ s, Reachable fetcher.Fetch "https://golang.org/" 1 s ∧
      (∀ t ∈ s.tasks, t.pc = .finished) ∧
      s.tasks[1]? = some ⟨"https://golang.org/pkg/", 0, some 0, .finished⟩ ∧
      s.tasks[2]? = some ⟨"https://golang.org/cmd/", 0, some 0, .finished⟩ ∧
      (s.shared.m.Already "https://golang.org/pkg/").1 = false ∧
      (s.shared.m.Already "https://golang.org/cmd/").1 = false) := by
  constructor
  · obtain ⟨s, hs, hf⟩ := Option.map_eq_some'.mp
      (show (State.run fetcher.Fetch [0, 0, 0, 0, 0, 0, 0, 0, 0, 0, 0, 1, 1, 1, 1, 1] main).map
        (fun s => ((s.shared.m.Already "https://golang.org/cmd/").1, s.tasks[2]?,
          s.tasks[1]?)) =
        some (false, some ⟨"https://golang.org/cmd/", 3, some 0, .entry⟩,
          some ⟨"https://golang.org/pkg/", 3, some 0,
            .add "https://golang.org/cmd/"
              ["https://golang.org/pkg/fmt/", "https://golang.org/pkg/os/"]⟩) by decide)
    simp only [Prod.mk.injEq] at hf
    exact ⟨s, ⟨_, hs⟩, hf.1, hf.2.1, hf.2.2⟩
  · obtain ⟨s, hs, hf⟩ := Option.map_eq_some'.mp
      (show (State.run fetcher.Fetch [0, 0, 0, 0, 0, 0, 0, 0, 0, 0, 0, 1, 1, 2, 2]
          (start "https://golang.org/" 1)).map
        (fun s => (s.tasks.all (fun t => t.pc = .finished), s.tasks[1]?, s.tasks[2]?,
          (s.shared.m.Already "https://golang.org/pkg/").1,
          (s.shared.m.Already "https://golang.org/cmd/").1)) =
        some (true, some ⟨"https://golang.org/pkg/", 0, some 0, .finished⟩,
          some ⟨"https://golang.org/cmd/", 0, some 0, .finished⟩, false, false) by decide)
    simp only [Prod.mk.injEq, List.all_eq_true, decide_eq_true_eq] at hf
    exact ⟨s, ⟨_, hs⟩, hf.1, hf.2.1, hf.2.2.1, hf.2.2.2.1, hf.2.2.2.2⟩

/-- C9, amended: the check-then-mark of the source on a key `id`.  The check of
line 54 on an unmarked `id` passes without touching the marker: the task goes on
to `g.Add(1)` and `go`.  The task started on `id` with a positive depth marks
`id` in its first two steps, and after `Mark(id)` the key is marked.  Once `id`
is marked, whatever steps the tasks take afterwards, the check of `id` by any
task fails: the task skips `id` and starts nothing.  `Mark(id)` changes what
`Already` answers for no other key, and `Already` leaves the marker as it
was. -/
theorem check_after_mark_fails (fetcher : Fetcher) (id : String) :
    (∀ (self : Nat) (s : Shared) (url : String) (d : Int) (p : Option Nat)
        (rest : List String), (s.m.Already id).1 = false →
      Crawl.step fetcher self s ⟨url, d, p, .loop (id :: rest)⟩ =
        some (s, ⟨url, d, p, .add id rest⟩, [])) ∧
    (∀ (self : Nat) (s : Shared) (d : Int) (p : Option Nat), 0 < d →
      Crawl.runAlone fetcher self 2 s ⟨id, d, p, .entry⟩ =
        (⟨s.m.Mark id, s.g, s.fetched, s.printed⟩, ⟨id, d, p, .fetch⟩, [])) ∧
    (∀ mk : SafeMarker, ((mk.Mark id).Already id).1 = true) ∧
    (∀ (sched : List Nat) (s s' : State) (self : Nat) (url : String) (d : Int)
        (p : Option Nat) (rest : List String),
      (s.shared.m.Already id).1 = true → State.run fetcher sched s = some s' →
      Crawl.step fetcher self s'.shared ⟨url, d, p, .loop (id :: rest)⟩ =
        some (s'.shared, ⟨url, d, p, .loop rest⟩, [])) ∧
    (∀ (mk : SafeMarker) (k : String), k ≠ id →
      ((mk.Mark id).Already k).1 = (mk.Already k).1) ∧
    (∀ (mk : SafeMarker) (k : String), (mk.Already k).2 = mk) := by
  refine ⟨fun self s url d p rest h => ?_, fun self s d p hd => ?_, fun mk => ?_,
    fun sched s s' self url d p rest h hr => ?_, fun mk k hk => ?_, fun mk k => rfl⟩
  · simp only [SafeMarker.Already] at h
    simp [Crawl.step, SafeMarker.Already, h]
  · have hd' : ¬ d ≤ 0 := by omega
    simp [Crawl.runAlone, Crawl.step, hd']
  · simp [SafeMarker.Already, SafeMarker.Mark]
  · have hv : s'.shared.m.v id = true :=
      State.run_induction (fun s => s.shared.m.v id = true)
        (fun i s s' hP hs => State.stepAt_mono hs id hP) sched s s' h hr
    simp [Crawl.step, SafeMarker.Already, hv]
  · simp [SafeMarker.Already, SafeMarker.Mark, hk]

theorem check_after_mark_fails_witness :
    ∃ s', State.run fetcher.Fetch [0]
        ⟨⟨m.Mark "https://golang.org/", 1, [], []⟩,
          [⟨"https://golang.org/", 4, none, .fetch⟩]⟩ = some s' ∧
      Crawl.step fetcher.Fetch 1 s'.shared
          ⟨"https://golang.org/pkg/", 3, some 0,
            .loop ("https://golang.org/" :: ["https://golang.org/cmd/"])⟩ =
        some (s'.shared,
          ⟨"https://golang.org/pkg/", 3, some 0, .loop ["https://golang.org/cmd/"]⟩, []) := by
  obtain ⟨s', hs', -⟩ := Option.map_eq_some'.mp
    (show (State.run fetcher.Fetch [0]
        ⟨⟨m.Mark "https://golang.org/", 1, [], []⟩,
          [⟨"https://golang.org/", 4, none, .fetch⟩]⟩).map (fun _ => ()) = some () by decide)
  exact ⟨s', hs',
    (check_after_mark_fails fetcher.Fetch "https://golang.org/").2.2.2.1 [0] _ s' 1
      "https://golang.org/pkg/" 3 (some 0) ["https://golang.org/cmd/"] (by decide) hs'⟩

/-! ## The WaitGroup counter -/

/-- The counter counts the unfinished tasks and the registered children that are
not started yet; this is preserved by every step. -/
theorem State.stepAt_counter {fetcher : Fetcher} {i : Nat} {s s' : State}
    (hinv : s.shared.g = (running s : Int) + pending s)
    (h : s.stepAt fetcher i = some s') :
    s'.shared.g = (running s' : Int) + pending s' := by
  obtain ⟨a, ⟨url, depth, parent, pc⟩, b, sh, t', kids, hl, -, hs, rfl⟩ := State.stepAt_cases h
  simp only [running, pending, hl, List.countP_append, List.countP_cons] at hinv ⊢
  rcases Crawl.step_cases hs with
    ⟨rfl, -, hr⟩ | ⟨rfl, -, hr⟩ | ⟨rfl, hr⟩ | ⟨e, rfl, -, hr⟩ | ⟨res, rfl, -, hr⟩ | ⟨rfl, hr⟩ |
    ⟨u, rest, rfl, -, hr⟩ | ⟨u, rest, rfl, -, hr⟩ | ⟨u, rest, rfl, hr⟩ | ⟨u, rest, rfl, hr⟩ |
    ⟨rfl, hr⟩ <;>
  · simp only [Prod.mk.injEq] at hr
    obtain ⟨rfl, rfl, rfl⟩ := hr
    simp [Task.live, Task.registering] at hinv ⊢
    omega

theorem Reachable.counter {fetcher : Fetcher} {url : String} {depth : Int} {s : State}
    (h : Reachable fetcher url depth s) : s.shared.g = (running s : Int) + pending s :=
  Reachable.induction (fun s => s.shared.g = (running s : Int) + pending s)
    (by simp [start, running, pending, Task.live, Task.registering])
    (fun _ _ _ hP hs => State.stepAt_counter hP hs) h

theorem running_pos_of_live {s : State} {c : Nat} {tc : Task}
    (hc : s.tasks[c]? = some tc) (hlive : tc.pc ≠ .finished) : 0 < running s := by
  have hmem : tc ∈ s.tasks := List.getElem?_mem hc
  exact List.countP_pos_iff.mpr ⟨tc, hmem, by simp [Task.live, hlive]⟩

/-- C4, the claim as stated fails: in the run of `main` in which the first call
of `Crawl` has just executed `g.Add(1)` for its first link (five steps), the
counter is 2 while a single task has been started and has not run `g.Done()`. -/
theorem waitgroup_counter_exceeds_running :
    ∃ s, Reachable fetcher.Fetch "https://golang.org/" 4 s ∧
      s.shared.g = 2 ∧ running s = 1 ∧ s.shared.g ≠ (running s : Int) := by
  obtain ⟨s, hs, hf⟩ := Option.map_eq_some'.mp
    (show (State.run fetcher.Fetch [0, 0, 0, 0, 0] main).map
      (fun s => (s.shared.g, running s)) = some (2, 1) by decide)
  simp only [Prod.mk.injEq] at hf
  exact ⟨s, ⟨[0, 0, 0, 0, 0], hs⟩, hf.1, hf.2, by rw [hf.1, hf.2]; decide⟩

/-- C4, amended: in every reachable state the counter of the WaitGroup is the
number of tasks that have not run their deferred `g.Done()` plus the number of
children registered by `g.Add(1)` and not started yet; it is never negative, and
when it is zero (so when `g.Wait()` returns) every task has finished and no
child is waiting to be started. -/
theorem waitgroup_counter (fetcher : Fetcher) (url : String) (depth : Int) (s : State)
    (h : Reachable fetcher url depth s) :
    s.shared.g = (running s : Int) + pending s ∧ 0 ≤ s.shared.g ∧
    (s.shared.g = 0 → (∀ t ∈ s.tasks, t.pc = .finished) ∧ pending s = 0) ∧
    (waitReturns s → (∀ t ∈ s.tasks, t.pc = .finished) ∧ pending s = 0) := by
  have hg := Reachable.counter h
  have h0 : s.shared.g = 0 → (∀ t ∈ s.tasks, t.pc = .finished) ∧ pending s = 0 := by
    intro hz
    have hr : running s = 0 := by omega
    refine ⟨fun t ht => ?_, by omega⟩
    have := List.countP_eq_zero.mp hr t ht
    simpa [Task.live] using this
  exact ⟨hg, by omega, h0, fun hw => h0 hw.2⟩

theorem waitgroup_counter_witness :
    Reachable fetcher.Fetch "https://golang.org/" 4 main ∧
    main.shared.g = (running main : Int) + pending main :=
  ⟨⟨[], rfl⟩, (waitgroup_counter fetcher.Fetch "https://golang.org/" 4 main ⟨[], rfl⟩).1⟩

/-- C5, the claim as stated fails: in the run of `main` in which the first call of
`Crawl` takes eleven steps in a row, that task has finished while the two tasks
it started (their `parent` is its index 0) have not taken a step. -/
theorem parent_finishes_before_children :
    ∃ s tp tc, Reachable fetcher.Fetch "https://golang.org/" 4 s ∧
      s.tasks[0]? = some tp ∧ s.tasks[1]? = some tc ∧
      tc.parent = some 0 ∧ tp.pc = .finished ∧ tc.pc = .entry := by
  obtain ⟨s, hs, hf⟩ := Option.map_eq_some'.mp
    (show (State.run fetcher.Fetch [0, 0, 0, 0, 0, 0, 0, 0, 0, 0, 0] main).map
      (fun s => (s.tasks[0]?, s.tasks[1]?)) =
      some (some ⟨"https://golang.org/", 4, none, .finished⟩,
            some ⟨"https://golang.org/pkg/", 3, some 0, .entry⟩) by decide)
  simp only [Prod.mk.injEq] at hf
  exact ⟨s, _, _, ⟨[0, 0, 0, 0, 0, 0, 0, 0, 0, 0, 0], hs⟩, hf.1, hf.2, rfl, rfl, rfl⟩

/-- C5, amended: a task does not wait for the tasks it starts; what every run
keeps is that as long as some task, child or not, has not run its deferred
`g.Done()`, the counter of the WaitGroup is positive and the `g.Wait()` of the
entry point cannot return. -/
theorem unfinished_task_blocks_wait (fetcher : Fetcher) (url : String) (depth : Int)
    (s : State) (c : Nat) (tc : Task) (h : Reachable fetcher url depth s)
    (hc : s.tasks[c]? = some tc) (hlive : tc.pc ≠ .finished) :
    0 < s.shared.g ∧ ¬ waitReturns s := by
  have hg := Reachable.counter h
  have hr := running_pos_of_live hc hlive
  refine ⟨by omega, fun hw => ?_⟩
  have := hw.2
  omega

theorem unfinished_task_blocks_wait_witness :
    0 < main.shared.g ∧ ¬ waitReturns main :=
  unfinished_task_blocks_wait fetcher.Fetch "https://golang.org/" 4 main 0
    ⟨"https://golang.org/", 4, none, .entry⟩ ⟨[], rfl⟩ (by decide) (by decide)

/-! ## The depth bound -/

theorem forall_mem_pool {P : Task → Prop} (a b kids : List Task) (t' : Task) :
    (∀ t ∈ a ++ t' :: b ++ kids, P t) ↔
      (∀ t ∈ a, P t) ∧ P t' ∧ (∀ t ∈ b, P t) ∧ ∀ t ∈ kids, P t := by
  constructor
  · intro h
    exact ⟨fun t ht => h t (by simp [ht]), h t' (by simp), fun t ht => h t (by simp [ht]),
      fun t ht => h t (by simp [ht])⟩
  · rintro ⟨ha, ht, hb, hk⟩ t hmem
    simp only [List.mem_append, List.mem_cons] at hmem
    rcases hmem with (h | rfl | h) | h
    · exact ha t h
    · exact ht
    · exact hb t h
    · exact hk t h

theorem forall_mem_split {P : Task → Prop} (a b : List Task) (t' : Task) :
    (∀ t ∈ a ++ t' :: b, P t) ↔ (∀ t ∈ a, P t) ∧ P t' ∧ (∀ t ∈ b, P t) := by
  have := forall_mem_pool (P := P) a b [] t'
  simpa using this

theorem State.stepAt_inRange {fetcher : Fetcher} {root : String} {depth : Int} {i : Nat}
    {s s' : State}
    (hinv : (∀ t ∈ s.tasks, t.inRange fetcher root depth) ∧
      ∀ u ∈ s.shared.fetched, ∃ k : Nat, (k : Int) < depth ∧ Hops fetcher root k u)
    (h : s.stepAt fetcher i = some s') :
    (∀ t ∈ s'.tasks, t.inRange fetcher root depth) ∧
      ∀ u ∈ s'.shared.fetched, ∃ k : Nat, (k : Int) < depth ∧ Hops fetcher root k u := by
  obtain ⟨a, ⟨url, d, parent, pc⟩, b, sh, t', kids, hl, -, hs, rfl⟩ := State.stepAt_cases h
  obtain ⟨ht, hf⟩ := hinv
  rw [hl, forall_mem_split] at ht
  obtain ⟨ha, ⟨⟨k, hkd, hk, hd⟩, hpc⟩, hb⟩ := ht
  simp only at hk hd
  simp only [forall_mem_pool]
  rcases Crawl.step_cases hs with
    ⟨rfl, hd0, hr⟩ | ⟨rfl, hd0, hr⟩ | ⟨rfl, hr⟩ | ⟨e, rfl, hfe, hr⟩ | ⟨res, rfl, hfe, hr⟩ |
    ⟨rfl, hr⟩ | ⟨u, rest, rfl, hv, hr⟩ | ⟨u, rest, rfl, hv, hr⟩ | ⟨u, rest, rfl, hr⟩ |
    ⟨u, rest, rfl, hr⟩ | ⟨rfl, hr⟩ <;>
  · simp only [Prod.mk.injEq] at hr
    obtain ⟨rfl, rfl, rfl⟩ := hr
    simp only [Task.inRange] at hpc
    first
    | refine ⟨⟨ha, ⟨⟨k, hkd, hk, hd⟩, ?_⟩, hb, List.forall_mem_nil _⟩, hf⟩
      first
      | trivial
      | exact hd0
      | exact hpc
      | exact ⟨hpc.1, fun y hy => hpc.2 y (by simp [hy])⟩
      | exact ⟨hpc.1, hpc.2 u (by simp), fun y hy => hpc.2 y (by simp [hy])⟩
    | refine ⟨⟨ha, ⟨⟨k, hkd, hk, hd⟩, ?_⟩, hb, List.forall_mem_nil _⟩, ?_⟩
      · first
        | trivial
        | exact ⟨hpc, fun y hy => ⟨res, hfe, hy⟩⟩
      · intro u hu
        simp only [List.mem_append, List.mem_singleton] at hu
        rcases hu with hu | rfl
        · exact hf u hu
        · exact ⟨k, by omega, hk⟩
    | refine ⟨⟨ha, ⟨⟨k, hkd, hk, hd⟩, ⟨hpc.1, hpc.2.2⟩⟩, hb, ?_⟩, hf⟩
      intro t ht
      simp only [List.mem_singleton] at ht
      subst ht
      exact ⟨⟨k + 1, by have := hpc.1; omega, Hops.link hk hpc.2.1, by push_cast; omega⟩, trivial⟩

theorem Reachable.inRange {fetcher : Fetcher} {root : String} {depth : Int} {s : State}
    (h : Reachable fetcher root depth s) :
    (∀ t ∈ s.tasks, t.inRange fetcher root depth) ∧
      ∀ u ∈ s.shared.fetched, ∃ k : Nat, (k : Int) < depth ∧ Hops fetcher root k u :=
  Reachable.induction
    (fun s => (∀ t ∈ s.tasks, t.inRange fetcher root depth) ∧
      ∀ u ∈ s.shared.fetched, ∃ k : Nat, (k : Int) < depth ∧ Hops fetcher root k u)
    (by simp [start, Task.inRange]; exact ⟨0, by omega, Hops.root, by simp⟩)
    (fun _ _ _ hP hs => State.stepAt_inRange hP hs) h

/-- C3: every url on which `Fetch` is called in a run of `Crawl(root, depth, ...)`
is reachable from `root` by a chain of fewer than `depth` links, each taken from
the url list of a successful fetch of the previous url, so that a url all of
whose chains have `depth` links or more is not fetched; with `depth = 1` the
only url fetched is `root`. -/
theorem fetched_within_depth (fetcher : Fetcher) (root : String) (depth : Int)
    (s : State) (u : String) (h : Reachable fetcher root depth s)
    (hu : u ∈ s.shared.fetched) :
    (∃ k : Nat, (k : Int) < depth ∧ Hops fetcher root k u) ∧
    ¬ (∀ k : Nat, Hops fetcher root k u → depth ≤ k) ∧
    (depth = 1 → u = root) := by
  obtain ⟨k, hk, hh⟩ := (Reachable.inRange h).2 u hu
  refine ⟨⟨k, hk, hh⟩, fun hall => ?_, fun h1 => ?_⟩
  · have := hall k hh
    omega
  · have hk0 : k = 0 := by omega
    subst hk0
    cases hh
    rfl

theorem fetched_within_depth_witness :
    ∃ s, Reachable fetcher.Fetch "https://golang.org/" 1 s ∧
      s.shared.fetched = ["https://golang.org/"] ∧
      ((1 : Int) = 1 → "https://golang.org/" = "https://golang.org/") := by
  obtain ⟨s, hs, hf⟩ := Option.map_eq_some'.mp
    (show (State.run fetcher.Fetch [0, 0, 0, 0, 0, 0, 0] (start "https://golang.org/" 1)).map
      (fun s => s.shared.fetched) = some ["https://golang.org/"] by decide)
  exact ⟨s, ⟨_, hs⟩, hf,
    (fetched_within_depth fetcher.Fetch "https://golang.org/" 1 s "https://golang.org/"
      ⟨_, hs⟩ (by simp [hf])).2.2⟩

/-! ## Termination -/

theorem cost_toNat (fetcher : Fetcher) (d : Int) (u : String) :
    cost fetcher d.toNat u = Task.cost fetcher ⟨u, d, none, .entry⟩ := by
  by_cases hd : d ≤ 0
  · have : d.toNat = 0 := by omega
    simp [Task.cost, hd, this, cost]
  · have : d.toNat = (d - 1).toNat + 1 := by omega
    rw [this]
    simp [Task.cost, hd, cost]

theorem Task.cost_parent (fetcher : Fetcher) (u : String) (d : Int) (p q : Option Nat)
    (pc : Pc) : Task.cost fetcher ⟨u, d, p, pc⟩ = Task.cost fetcher ⟨u, d, q, pc⟩ := rfl

theorem loopCost_nil (c : String → Nat) : loopCost c [] = 1 := rfl

theorem loopCost_cons (c : String → Nat) (u : String) (rest : List String) :
    loopCost c (u :: rest) = 3 + c u + loopCost c rest := by
  simp [loopCost]; omega

/-- Every step of the pool lowers the bound. -/
theorem State.stepAt_cost {fetcher : Fetcher} {i : Nat} {s s' : State}
    (h : s.stepAt fetcher i = some s') : s'.cost fetcher < s.cost fetcher := by
  obtain ⟨a, ⟨url, d, parent, pc⟩, b, sh, t', kids, hl, -, hs, rfl⟩ := State.stepAt_cases h
  simp only [State.cost, hl, List.map_append, List.map_cons, List.sum_append, List.sum_cons,
    List.map_nil, List.sum_nil]
  rcases Crawl.step_cases hs with
    ⟨rfl, hd0, hr⟩ | ⟨rfl, hd0, hr⟩ | ⟨rfl, hr⟩ | ⟨e, rfl, hfe, hr⟩ | ⟨res, rfl, hfe, hr⟩ |
    ⟨rfl, hr⟩ | ⟨u, rest, rfl, hv, hr⟩ | ⟨u, rest, rfl, hv, hr⟩ | ⟨u, rest, rfl, hr⟩ |
    ⟨u, rest, rfl, hr⟩ | ⟨rfl, hr⟩ <;>
  · simp only [Prod.mk.injEq] at hr
    obtain ⟨rfl, rfl, rfl⟩ := hr
    simp only [List.map_cons, List.map_nil, List.sum_cons, List.sum_nil]
    try
      have hc := cost_toNat fetcher (d - 1) u
      rw [Task.cost_parent fetcher u (d - 1) none (some i)] at hc
      simp only [← hc]
    simp only [Task.cost, loopCost_nil, loopCost_cons]
    try simp only [hfe]
    try split_ifs
    all_goals omega

theorem State.run_append (fetcher : Fetcher) :
    ∀ (s1 s2 : List Nat) (s : State),
      State.run fetcher (s1 ++ s2) s = (State.run fetcher s1 s).bind (State.run fetcher s2)
  | [], s2, s => by simp [State.run]
  | i :: s1, s2, s => by
    simp only [List.cons_append, State.run]
    cases hs : s.stepAt fetcher i with
    | none => simp
    | some s' => simpa using State.run_append fetcher s1 s2 s'

theorem Reachable.run {fetcher : Fetcher} {root : String} {depth : Int} {s s' : State}
    (h : Reachable fetcher root depth s) (sched : List Nat)
    (hr : State.run fetcher sched s = some s') : Reachable fetcher root depth s' := by
  obtain ⟨sched0, h0⟩ := h
  exact ⟨sched0 ++ sched, by simp [State.run_append, h0, hr]⟩

theorem State.run_cost {fetcher : Fetcher} :
    ∀ (sched : List Nat) (s s' : State), State.run fetcher sched s = some s' →
      sched.length + s'.cost fetcher ≤ s.cost fetcher ∧
      s'.tasks.length ≤ s.tasks.length + sched.length
  | [], s, s', h => by simp [State.run] at h; subst h; simp
  | i :: sched, s, s', h => by
    simp only [State.run] at h
    cases hs : s.stepAt fetcher i with
    | none => simp [hs] at h
    | some s1 =>
      simp only [hs] at h
      have ih := State.run_cost sched s1 s' h
      have hc := State.stepAt_cost hs
      obtain ⟨a, t, b, sh, t', kids, hl, -, hst, rfl⟩ := State.stepAt_cases hs
      have hk : kids.length ≤ 1 := by
        obtain ⟨url, d, parent, pc⟩ := t
        rcases Crawl.step_cases hst with
          ⟨-, -, hr⟩ | ⟨-, -, hr⟩ | ⟨-, hr⟩ | ⟨e, -, -, hr⟩ | ⟨res, -, -, hr⟩ | ⟨-, hr⟩ |
          ⟨u, rest, -, -, hr⟩ | ⟨u, rest, -, -, hr⟩ | ⟨u, rest, -, hr⟩ | ⟨u, rest, -, hr⟩ |
          ⟨-, hr⟩ <;>
        · simp only [Prod.mk.injEq] at hr
          obtain ⟨-, -, rfl⟩ := hr
          simp
      simp only [hl, List.length_append, List.length_cons] at ih ⊢
      omega

/-- A task that has not finished can take a step, whatever the other tasks do. -/
theorem State.stepAt_live (fetcher : Fetcher) {s : State} {i : Nat} {t : Task}
    (hi : s.tasks[i]? = some t) (hlive : t.pc ≠ .finished) :
    ∃ s', s.stepAt fetcher i = some s' := by
  obtain ⟨url, d, parent, pc⟩ := t
  have hstep : ∃ r, Crawl.step fetcher i s.shared ⟨url, d, parent, pc⟩ = some r := by
    cases pc with
    | entry => by_cases hd : d ≤ 0 <;> simp [Crawl.step, hd]
    | mark => simp [Crawl.step]
    | fetch => cases hf : fetcher url <;> simp [Crawl.step, hf]
    | loop rest =>
      cases rest with
      | nil => simp [Crawl.step]
      | cons u rest => by_cases hv : (s.shared.m.Already u).1 = true <;> simp [Crawl.step, hv]
    | add u rest => simp [Crawl.step]
    | spawn u rest => simp [Crawl.step]
    | exit => simp [Crawl.step]
    | finished => exact absurd rfl hlive
  obtain ⟨⟨sh, t', kids⟩, hr⟩ := hstep
  exact ⟨⟨sh, s.tasks.set i t' ++ kids⟩, by simp only [State.stepAt, hi, hr]⟩

/-- From every state some schedule leads to a state where every task has finished. -/
theorem State.exists_complete (fetcher : Fetcher) :
    ∀ (n : Nat) (s : State), s.cost fetcher ≤ n →
      ∃ sched s', State.run fetcher sched s = some s' ∧ ∀ t ∈ s'.tasks, t.pc = .finished := by
  intro n
  induction n with
  | zero =>
    intro s hn
    by_cases hall : ∀ t ∈ s.tasks, t.pc = .finished
    · exact ⟨[], s, rfl, hall⟩
    · push_neg at hall
      obtain ⟨t, ht, hlive⟩ := hall
      obtain ⟨i, hi⟩ := List.getElem?_of_mem ht
      obtain ⟨s', hs'⟩ := State.stepAt_live fetcher hi hlive
      have := State.stepAt_cost hs'
      omega
  | succ n ih =>
    intro s hn
    by_cases hall : ∀ t ∈ s.tasks, t.pc = .finished
    · exact ⟨[], s, rfl, hall⟩
    · push_neg at hall
      obtain ⟨t, ht, hlive⟩ := hall
      obtain ⟨i, hi⟩ := List.getElem?_of_mem ht
      obtain ⟨s', hs'⟩ := State.stepAt_live fetcher hi hlive
      have hc := State.stepAt_cost hs'
      obtain ⟨sched, s'', hr, hfin⟩ := ih s' (by omega)
      exact ⟨i :: sched, s'', by simp [State.run, hs', hr], hfin⟩

theorem waitReturns_of_finished {fetcher : Fetcher} {root : String} {depth : Int} {s : State}
    (h : Reachable fetcher root depth s) (hfin : ∀ t ∈ s.tasks, t.pc = .finished) :
    waitReturns s := by
  have hg := Reachable.counter h
  have hr : running s = 0 :=
    List.countP_eq_zero.mpr fun t ht => by simp [Task.live, hfin t ht]
  have hp : pending s = 0 :=
    List.countP_eq_zero.mpr fun t ht => by simp [Task.registering, hfin t ht]
  refine ⟨fun t ht => hfin t ?_, by omega⟩
  cases hl : s.tasks with
  | nil => simp [hl] at ht
  | cons x l => simp [hl] at ht; simp [ht]

/-- C10: the crawl terminates under every schedule.  For every fetcher, root and
depth: a schedule from the start has at most `cost fetcher depth.toNat root`
steps and starts at most one task per step; a task that has not finished can
always take a step; every reachable state can be run on to a state in which all
tasks have finished and `g.Wait()` returns; every task is at most `depth` levels
below the root, its depth being `depth` minus its level; a task started by a
`go` statement has the depth of its parent minus one; and a task comes to its
deferred `g.Done()` from the test of line 42 with `depth ≤ 0`, from a failed
fetch, or from the end of its loop. -/
theorem crawl_terminates (fetcher : Fetcher) (root : String) (depth : Int) :
    (∀ sched s, State.run fetcher sched (start root depth) = some s →
      sched.length ≤ cost fetcher depth.toNat root ∧ s.tasks.length ≤ sched.length + 1) ∧
    (∀ s, Reachable fetcher root depth s → ∀ i t, s.tasks[i]? = some t → t.pc ≠ .finished →
      ∃ s', s.stepAt fetcher i = some s') ∧
    (∀ s, Reachable fetcher root depth s → ∃ sched s', State.run fetcher sched s = some s' ∧
      (∀ t ∈ s'.tasks, t.pc = .finished) ∧ waitReturns s') ∧
    (∀ s, Reachable fetcher root depth s → ∀ t ∈ s.tasks,
      ∃ k : Nat, k ≤ depth.toNat ∧ t.depth = depth - k) ∧
    (∀ self sh t sh' t' kids, Crawl.step fetcher self sh t = some (sh', t', kids) →
      (∀ c ∈ kids, c.depth = t.depth - 1) ∧
      (t'.pc = .exit → (t.pc = .entry ∧ t.depth ≤ 0) ∨
        (t.pc = .fetch ∧ ∃ e, fetcher t.url = .error e) ∨ t.pc = .loop [])) := by
  refine ⟨fun sched s h => ?_, fun s _ i t hi hlive => State.stepAt_live fetcher hi hlive,
    fun s h => ?_, fun s h t ht => ?_, fun self sh t sh' t' kids h => ?_⟩
  · have := State.run_cost sched _ _ h
    have hc : (start root depth).cost fetcher = cost fetcher depth.toNat root := by
      simp [State.cost, start, cost_toNat]
    simp only [hc] at this
    simp only [start, List.length_singleton] at this
    omega
  · obtain ⟨sched, s', hr, hfin⟩ := State.exists_complete fetcher _ s le_rfl
    exact ⟨sched, s', hr, hfin, waitReturns_of_finished (h.run sched hr) hfin⟩
  · obtain ⟨⟨k, hk, -, hd⟩, -⟩ := (Reachable.inRange h).1 t ht
    exact ⟨k, hk, hd⟩
  · obtain ⟨url, d, parent, pc⟩ := t
    rcases Crawl.step_cases h with
      ⟨rfl, hd0, hr⟩ | ⟨rfl, hd0, hr⟩ | ⟨rfl, hr⟩ | ⟨e, rfl, hfe, hr⟩ | ⟨res, rfl, hfe, hr⟩ |
      ⟨rfl, hr⟩ | ⟨u, rest, rfl, hv, hr⟩ | ⟨u, rest, rfl, hv, hr⟩ | ⟨u, rest, rfl, hr⟩ |
      ⟨u, rest, rfl, hr⟩ | ⟨rfl, hr⟩ <;>
    · simp only [Prod.mk.injEq] at hr
      obtain ⟨rfl, rfl, rfl⟩ := hr
      simp [*]

theorem crawl_terminates_witness :
    State.run fetcher.Fetch [] (start "https://golang.org/" 4) = some main ∧
    ([] : List Nat).length ≤ cost fetcher.Fetch (4 : Int).toNat "https://golang.org/" :=
  ⟨rfl, ((crawl_terminates fetcher.Fetch "https://golang.org/" 4).1 [] main rfl).1⟩

/-! ## Duplicate fetches -/

/-- C2 fails on the code: in the run of `main` in which each task runs to its end
before the next one starts (the first call, then the task of `/pkg/`, then the
others in the order they were started), both the first call and the task of
`/pkg/` find `/cmd/` unmarked and start a task on it, and `Fetch` is called
twice on `/cmd/`. -/
theorem main_fetches_cmd_twice :
    ∃ s, Reachable fetcher.Fetch "https://golang.org/" 4 s ∧
      (∀ t ∈ s.tasks, t.pc = .finished) ∧
      s.shared.fetched = ["https://golang.org/", "https://golang.org/pkg/",
        "https://golang.org/cmd/", "https://golang.org/cmd/",
        "https://golang.org/pkg/fmt/", "https://golang.org/pkg/os/"] ∧
      s.shared.fetched.count "https://golang.org/cmd/" = 2 := by
  obtain ⟨s, hs, hf⟩ := Option.map_eq_some'.mp
    (show (State.run fetcher.Fetch
        [0, 0, 0, 0, 0, 0, 0, 0, 0, 0, 0, 1, 1, 1, 1, 1, 1, 1, 1, 1, 1, 1, 1, 1, 1, 1,
         2, 2, 2, 2, 3, 3, 3, 3, 4, 4, 4, 4, 4, 4, 4, 5, 5, 5, 5, 5, 5, 5] main).map
      (fun s => (s.tasks.all (fun t => t.pc = .finished), s.shared.fetched)) =
      some (true, ["https://golang.org/", "https://golang.org/pkg/",
        "https://golang.org/cmd/", "https://golang.org/cmd/",
        "https://golang.org/pkg/fmt/", "https://golang.org/pkg/os/"]) by decide)
  simp only [Prod.mk.injEq, List.all_eq_true, decide_eq_true_eq] at hf
  exact ⟨s, ⟨_, hs⟩, hf.1, hf.2, by rw [hf.2]; decide⟩

/-- Why a url can be fetched twice: a task never tests `Already` on its own url.
Run alone from any shared state, also one where `url` is marked already, a call
with `depth > 0` calls `Fetch(url)`. -/
theorem Crawl_fetches_marked_url (fetcher : Fetcher) (url : String) (depth : Int)
    (parent : Option Nat) (self : Nat) (s : Shared) (hd : 0 < depth) :
    (Crawl.runAlone fetcher self 3 s ⟨url, depth, parent, .entry⟩).1.fetched =
      s.fetched ++ [url] := by
  have hd' : ¬ depth ≤ 0 := by omega
  cases hf : fetcher url <;> simp [Crawl.runAlone, Crawl.step, hd', hf]

/-! ## A failed fetch -/

theorem getElem?_mid {α : Type} (a b : List α) (t : α) : (a ++ t :: b)[a.length]? = some t := by
  induction a <;> simp_all

theorem set_mid {α : Type} (a b : List α) (t t' : α) :
    (a ++ t :: b).set a.length t' = a ++ t' :: b := by
  induction a <;> simp_all

theorem State.stepAt_of_split (fetcher : Fetcher) {i : Nat} (s : State) {a b : List Task}
    {t : Task} (t' : Task) (sh : Shared) (kids : List Task)
    (hl : s.tasks = a ++ t :: b) (hlen : a.length = i)
    (hs : Crawl.step fetcher i s.shared t = some (sh, t', kids)) :
    s.stepAt fetcher i = some ⟨sh, a ++ t' :: b ++ kids⟩ := by
  subst hlen
  have hget : s.tasks[a.length]? = some t := by rw [hl]; exact getElem?_mid a b t
  have hset : s.tasks.set a.length t' = a ++ t' :: b := by rw [hl]; exact set_mid a b t t'
  simp only [State.stepAt, hget, hs, hset]

/-- One step under `fetcher`, where the fetch of `url` fails, is matched by one or
two steps under `succeedEmpty fetcher url body`, up to the printed output. -/
theorem State.stepAt_succeedEmpty {fetcher : Fetcher} {url : String} (body : String)
    {e : String} (he : fetcher url = .error e) {i : Nat} {s1 s1' s2 : State}
    (hm : s2.shared.m = s1.shared.m) (hg : s2.shared.g = s1.shared.g)
    (hf : s2.shared.fetched = s1.shared.fetched) (ht : s2.tasks = s1.tasks)
    (h : s1.stepAt fetcher i = some s1') :
    ∃ sched s2', State.run (succeedEmpty fetcher url body) sched s2 = some s2' ∧
      s2'.shared.m = s1'.shared.m ∧ s2'.shared.g = s1'.shared.g ∧
      s2'.shared.fetched = s1'.shared.fetched ∧ s2'.tasks = s1'.tasks := by
  obtain ⟨a, ⟨u, d, parent, pc⟩, b, sh, t', kids, hl, hlen, hs, rfl⟩ := State.stepAt_cases h
  obtain ⟨⟨m2, g2, f2, p2⟩, tasks2⟩ := s2
  simp only at hm hg hf ht
  subst hm hg hf ht
  have one : ∀ (sh2 : Shared), Crawl.step (succeedEmpty fetcher url body) i
        ⟨s1.shared.m, s1.shared.g, s1.shared.fetched, p2⟩ ⟨u, d, parent, pc⟩ =
        some (sh2, t', kids) → sh2.m = sh.m → sh2.g = sh.g → sh2.fetched = sh.fetched →
      ∃ sched s2', State.run (succeedEmpty fetcher url body) sched
          ⟨⟨s1.shared.m, s1.shared.g, s1.shared.fetched, p2⟩, s1.tasks⟩ = some s2' ∧
        s2'.shared.m = sh.m ∧ s2'.shared.g = sh.g ∧ s2'.shared.fetched = sh.fetched ∧
        s2'.tasks = a ++ t' :: b ++ kids := by
    intro sh2 h2 e1 e2 e3
    refine ⟨[i], ⟨sh2, a ++ t' :: b ++ kids⟩, ?_, e1, e2, e3, rfl⟩
    have := State.stepAt_of_split (succeedEmpty fetcher url body)
      ⟨⟨s1.shared.m, s1.shared.g, s1.shared.fetched, p2⟩, s1.tasks⟩ t' sh2 kids hl hlen h2
    simp [State.run, this]
  rcases Crawl.step_cases hs with
    ⟨rfl, hd0, hr⟩ | ⟨rfl, hd0, hr⟩ | ⟨rfl, hr⟩ | ⟨e', rfl, hfe, hr⟩ | ⟨res, rfl, hfe, hr⟩ |
    ⟨rfl, hr⟩ | ⟨v, rest, rfl, hv, hr⟩ | ⟨v, rest, rfl, hv, hr⟩ | ⟨v, rest, rfl, hr⟩ |
    ⟨v, rest, rfl, hr⟩ | ⟨rfl, hr⟩
  rotate_left 3
  · -- the fetch fails under `fetcher`
    simp only [Prod.mk.injEq] at hr
    obtain ⟨rfl, rfl, rfl⟩ := hr
    by_cases hu : u = url
    · subst hu
      have h1 := State.stepAt_of_split (succeedEmpty fetcher u body)
        ⟨⟨s1.shared.m, s1.shared.g, s1.shared.fetched, p2⟩, s1.tasks⟩
        ⟨u, d, parent, .loop []⟩
        ⟨s1.shared.m, s1.shared.g, s1.shared.fetched ++ [u], p2 ++ [.found u body]⟩
        [] hl hlen (by simp [Crawl.step, succeedEmpty])
      have h2 := State.stepAt_of_split (succeedEmpty fetcher u body)
        ⟨⟨s1.shared.m, s1.shared.g, s1.shared.fetched ++ [u], p2 ++ [.found u body]⟩,
          a ++ ⟨u, d, parent, .loop []⟩ :: b ++ []⟩
        (a := a) (b := b) (t := ⟨u, d, parent, .loop []⟩) ⟨u, d, parent, .exit⟩
        ⟨s1.shared.m, s1.shared.g, s1.shared.fetched ++ [u], p2 ++ [.found u body]⟩
        [] (by simp) hlen (by simp [Crawl.step])
      exact ⟨[i, i],
        ⟨⟨s1.shared.m, s1.shared.g, s1.shared.fetched ++ [u], p2 ++ [.found u body]⟩,
          a ++ ⟨u, d, parent, .exit⟩ :: b ++ []⟩,
        by simp only [State.run, h1, h2], rfl, rfl, rfl, rfl⟩
    · exact one ⟨s1.shared.m, s1.shared.g, s1.shared.fetched ++ [u], p2 ++ [.err e']⟩
        (by simp [Crawl.step, succeedEmpty, hu, hfe]) rfl rfl rfl
  · -- the fetch succeeds under `fetcher`: `u` is not `url`
    simp only [Prod.mk.injEq] at hr
    obtain ⟨rfl, rfl, rfl⟩ := hr
    have hu : u ≠ url := fun hu => by simp [hu, he] at hfe
    exact one ⟨s1.shared.m, s1.shared.g, s1.shared.fetched ++ [u],
        p2 ++ [.found u res.body]⟩
      (by simp [Crawl.step, succeedEmpty, hu, hfe]) rfl rfl rfl
  all_goals
    simp only [Prod.mk.injEq] at hr
    obtain ⟨rfl, rfl, rfl⟩ := hr
    first
    | exact one ⟨s1.shared.m, s1.shared.g, s1.shared.fetched, p2⟩
        (by simp [Crawl.step, SafeMarker.Already, *]) rfl rfl rfl
    | exact one ⟨s1.shared.m.Mark u, s1.shared.g, s1.shared.fetched, p2⟩
        (by simp [Crawl.step]) rfl rfl rfl
    | exact one ⟨s1.shared.m, s1.shared.g + 1, s1.shared.fetched, p2⟩
        (by simp [Crawl.step]) rfl rfl rfl
    | exact one ⟨s1.shared.m, s1.shared.g - 1, s1.shared.fetched, p2⟩
        (by simp [Crawl.step]) rfl rfl rfl

theorem State.run_succeedEmpty {fetcher : Fetcher} {url : String} (body : String)
    {e : String} (he : fetcher url = .error e) :
    ∀ (sched : List Nat) (s1 s1' s2 : State),
      s2.shared.m = s1.shared.m → s2.shared.g = s1.shared.g →
      s2.shared.fetched = s1.shared.fetched → s2.tasks = s1.tasks →
      State.run fetcher sched s1 = some s1' →
      ∃ sched' s2', State.run (succeedEmpty fetcher url body) sched' s2 = some s2' ∧
        s2'.shared.m = s1'.shared.m ∧ s2'.shared.g = s1'.shared.g ∧
        s2'.shared.fetched = s1'.shared.fetched ∧ s2'.tasks = s1'.tasks
  | [], s1, s1', s2, hm, hg, hf, ht, h => by
    simp only [State.run, Option.some.injEq] at h
    subst h
    exact ⟨[], s2, rfl, hm, hg, hf, ht⟩
  | i :: sched, s1, s1', s2, hm, hg, hf, ht, h => by
    simp only [State.run] at h
    cases hs : s1.stepAt fetcher i with
    | none => simp [hs] at h
    | some s1a =>
      simp only [hs] at h
      obtain ⟨schedA, s2a, hra, hm', hg', hf', ht'⟩ :=
        State.stepAt_succeedEmpty body he hm hg hf ht hs
      obtain ⟨schedB, s2b, hrb, hfin⟩ :=
        State.run_succeedEmpty body he sched s1a s1' s2a hm' hg' hf' ht' h
      exact ⟨schedA ++ schedB, s2b, by simp [State.run_append, hra, hrb], hfin⟩

/-- C7: a call `Crawl(url, depth, fetcher, g)` with `depth > 0` whose fetch fails
with `e` has exactly four steps, whatever the shared state at each of them: the
test of the depth, `Mark(url)`, the failed `Fetch(url)` with the print of `e`,
and the deferred `g.Done()`; none starts a task.  Every run in which the fetch
of `url` fails is, up to the printed output, a run of the same program in which
that fetch succeeds with an empty list of links: same visited set, same
counter, same calls of `Fetch` in the same order, same tasks at the same
program points. -/
theorem fetch_failure_contained (fetcher : Fetcher) (url : String) (depth : Int)
    (parent : Option Nat) (self : Nat) (e : String) (hd : 0 < depth)
    (he : fetcher url = .error e) :
    (∀ s, Crawl.step fetcher self s ⟨url, depth, parent, .entry⟩ =
      some (s, ⟨url, depth, parent, .mark⟩, [])) ∧
    (∀ s, Crawl.step fetcher self s ⟨url, depth, parent, .mark⟩ =
      some (⟨s.m.Mark url, s.g, s.fetched, s.printed⟩, ⟨url, depth, parent, .fetch⟩, [])) ∧
    (∀ s, Crawl.step fetcher self s ⟨url, depth, parent, .fetch⟩ =
      some (⟨s.m, s.g, s.fetched ++ [url], s.printed ++ [.err e]⟩,
        ⟨url, depth, parent, .exit⟩, [])) ∧
    (∀ s, Crawl.step fetcher self s ⟨url, depth, parent, .exit⟩ =
      some (⟨s.m, s.g - 1, s.fetched, s.printed⟩, ⟨url, depth, parent, .finished⟩, [])) ∧
    (∀ s, Crawl.step fetcher self s ⟨url, depth, parent, .finished⟩ = none) ∧
    (∀ s fuel, Crawl.runAlone fetcher self (fuel + 4) s ⟨url, depth, parent, .entry⟩ =
      (⟨s.m.Mark url, s.g - 1, s.fetched ++ [url], s.printed ++ [.err e]⟩,
        ⟨url, depth, parent, .finished⟩, [])) ∧
    (∀ (body root : String) (d : Int) (sched : List Nat) (s1 : State),
      State.run fetcher sched (start root d) = some s1 →
      ∃ sched' s2, State.run (succeedEmpty fetcher url body) sched' (start root d) = some s2 ∧
        s2.shared.m = s1.shared.m ∧ s2.shared.g = s1.shared.g ∧
        s2.shared.fetched = s1.shared.fetched ∧ s2.tasks = s1.tasks) := by
  have hd' : ¬ depth ≤ 0 := by omega
  have h1 : ∀ s, Crawl.step fetcher self s ⟨url, depth, parent, .entry⟩ =
      some (s, ⟨url, depth, parent, .mark⟩, []) := fun s => by simp [Crawl.step, hd']
  have h2 : ∀ s, Crawl.step fetcher self s ⟨url, depth, parent, .mark⟩ =
      some (⟨s.m.Mark url, s.g, s.fetched, s.printed⟩, ⟨url, depth, parent, .fetch⟩, []) :=
    fun s => by simp [Crawl.step]
  have h3 : ∀ s, Crawl.step fetcher self s ⟨url, depth, parent, .fetch⟩ =
      some (⟨s.m, s.g, s.fetched ++ [url], s.printed ++ [.err e]⟩,
        ⟨url, depth, parent, .exit⟩, []) := fun s => by simp [Crawl.step, he]
  have h4 : ∀ s, Crawl.step fetcher self s ⟨url, depth, parent, .exit⟩ =
      some (⟨s.m, s.g - 1, s.fetched, s.printed⟩, ⟨url, depth, parent, .finished⟩, []) :=
    fun s => by simp [Crawl.step]
  have h5 : ∀ s, Crawl.step fetcher self s ⟨url, depth, parent, .finished⟩ = none :=
    fun s => by simp [Crawl.step]
  refine ⟨h1, h2, h3, h4, h5, fun s fuel => ?_, fun body root d sched s1 hr => ?_⟩
  · cases fuel with
    | zero => simp [Crawl.runAlone, h1, h2, h3, h4]
    | succ n => simp [Crawl.runAlone, h1, h2, h3, h4, h5]
  · exact State.run_succeedEmpty body he sched _ s1 _ rfl rfl rfl rfl hr

theorem fetch_failure_contained_witness :
    (0 : Int) < 3 ∧
    fetcher.Fetch "https://golang.org/cmd/" = .error "not found: https://golang.org/cmd/" ∧
    Crawl.runAlone fetcher.Fetch 2 4 ⟨m, 1, [], []⟩
        ⟨"https://golang.org/cmd/", 3, some 0, .entry⟩ =
      (⟨m.Mark "https://golang.org/cmd/", 1 - 1, [] ++ ["https://golang.org/cmd/"],
          [] ++ [.err "not found: https://golang.org/cmd/"]⟩,
        ⟨"https://golang.org/cmd/", 3, some 0, .finished⟩, []) :=
  ⟨by decide, rfl,
   (fetch_failure_contained fetcher.Fetch "https://golang.org/cmd/" 3 (some 0) 2
      "not found: https://golang.org/cmd/" (by decide) rfl).2.2.2.2.2.1
      ⟨m, 1, [], []⟩ 0⟩

/-! ## The canned data -/

theorem Shape.mono {A B C D E : String} {m m' : SafeMarker} {t : Task}
    (hm : ∀ k, m.v k = true → m'.v k = true) (h : Shape A B C D E m t) :
    Shape A B C D E m' t := by
  rcases h with ⟨h1, h2, h3, h4⟩ | ⟨h1, h2, h3, h4, h5⟩ | h | ⟨h1, h2, h3, h4, h5⟩ |
    ⟨h1, h2, h3, h4, h5⟩
  · exact Or.inl ⟨h1, h2, h3, fun x y => hm _ (h4 x y)⟩
  · exact Or.inr (Or.inl ⟨h1, h2, h3, hm _ h4, fun x y => hm _ (h5 x y)⟩)
  · exact Or.inr (Or.inr (Or.inl h))
  · exact Or.inr (Or.inr (Or.inr (Or.inl ⟨h1, h2, h3, hm _ h4, hm _ h5⟩)))
  · exact Or.inr (Or.inr (Or.inr (Or.inr ⟨h1, h2, h3, hm _ h4, hm _ h5⟩)))

theorem onUrl_le_owesB (A B C : String) (l : List Task) :
    l.countP (onUrl B) ≤ l.countP (owesB A B C) :=
  List.countP_mono_left fun t _ h => by
    simp only [onUrl, owesB, decide_eq_true_eq, Bool.or_eq_true] at h ⊢
    exact Or.inr h

theorem onUrl_le_owesC (A B C : String) (l : List Task) :
    l.countP (onUrl C) ≤ l.countP (owesC A B C) :=
  List.countP_mono_left fun t _ h => by
    simp only [onUrl, owesC, decide_eq_true_eq, Bool.or_eq_true] at h ⊢
    exact Or.inr h

theorem onUrl_le_owesD (A B C D E : String) (l : List Task) :
    l.countP (onUrl D) ≤ l.countP (owesD A B C D E) :=
  List.countP_mono_left fun t _ h => by
    simp only [onUrl, owesD, decide_eq_true_eq, Bool.or_eq_true] at h ⊢
    exact Or.inr h

theorem onUrl_le_owesE (A B C D E : String) (l : List Task) :
    l.countP (onUrl E) ≤ l.countP (owesE A B C D E) :=
  List.countP_mono_left fun t _ h => by
    simp only [onUrl, owesE, decide_eq_true_eq, Bool.or_eq_true] at h ⊢
    exact Or.inr h

theorem Scene.init {f : Fetcher} {A B C D E : String} (hc : Canned f A B C D E) :
    Scene A B C D E (start A 4) := by
  have hne := hc.nodup
  simp only [List.nodup_cons, List.mem_cons, List.mem_singleton, not_or, List.not_mem_nil,
    not_false_eq_true, List.nodup_nil, and_true] at hne
  simp [Scene, start, hne, Shape, Counts, rootPcs, rootBeforeC, rootBeforeB, onUrl, owesB,
    owesC, owesD, owesE, fetchedOn, m]

set_option maxHeartbeats 4000000 in
/-- The invariant is kept by every step of every task. -/
theorem Scene.step {f : Fetcher} {A B C D E : String} (hc : Canned f A B C D E)
    {i : Nat} {s s' : State} (hinv : Scene A B C D E s) (h : s.stepAt f i = some s') :
    Scene A B C D E s' := by
  obtain ⟨a, ⟨url, d, parent, pc⟩, b, sh, t', kids, hl, -, hs, rfl⟩ := State.stepAt_cases h
  obtain ⟨⟨m, g, fetched, printed⟩, tasks⟩ := s
  simp only at hl hs
  subst hl
  clear h
  obtain ⟨hshape, hcount⟩ := hinv
  have hne := hc.nodup
  simp only [List.nodup_cons, List.mem_cons, List.mem_singleton, not_or, List.not_mem_nil,
    not_false_eq_true, List.nodup_nil, and_true] at hne
  obtain ⟨⟨hAB, hAC, hAD, hAE⟩, ⟨hBC, hBD, hBE⟩, ⟨hCD, hCE⟩, hDE⟩ := hne
  obtain ⟨bodyA, hfA⟩ := hc.fetchA
  obtain ⟨bodyB, hfB⟩ := hc.fetchB
  obtain ⟨eC, hfC⟩ := hc.fetchC
  obtain ⟨bodyD, hfD⟩ := hc.fetchD
  obtain ⟨bodyE, hfE⟩ := hc.fetchE
  clear hc
  simp only [forall_mem_split] at hshape
  obtain ⟨hsa, hst, hsb⟩ := hshape
  have hBa := onUrl_le_owesB A B C a
  have hBb := onUrl_le_owesB A B C b
  have hCa := onUrl_le_owesC A B C a
  have hCb := onUrl_le_owesC A B C b
  have hDa := onUrl_le_owesD A B C D E a
  have hDb := onUrl_le_owesD A B C D E b
  have hEa := onUrl_le_owesE A B C D E a
  have hEb := onUrl_le_owesE A B C D E b
  simp only [Scene, forall_mem_pool]
  simp only [Counts, List.countP_append, List.countP_cons, List.length_append,
    List.length_cons] at hcount ⊢
  simp only [Shape, rootPcs, rootBeforeC, rootBeforeB, pkgPcs, pkgBeforeE, pkgBeforeD, failPcs,
    subPcs, List.cons_append, List.nil_append, List.mem_cons, List.mem_singleton,
    List.not_mem_nil, or_false] at hst
  have hmA : True := trivial
  have hmB : True := trivial
  have hd : True := trivial
  rcases hst with
    ⟨rfl, rfl, rfl | rfl | rfl | rfl | rfl | rfl | rfl | rfl | rfl | rfl | rfl | rfl, hmA⟩ |
    ⟨rfl, rfl, rfl | rfl | rfl | rfl | rfl | rfl | rfl | rfl | rfl | rfl | rfl | rfl | rfl |
      rfl | rfl | rfl, hmA, hmB⟩ |
    ⟨rfl, hd, rfl | rfl | rfl | rfl | rfl⟩ |
    ⟨rfl, rfl, rfl | rfl | rfl | rfl | rfl | rfl | rfl | rfl, hmA, hmB⟩ |
    ⟨rfl, rfl, rfl | rfl | rfl | rfl | rfl | rfl | rfl | rfl, hmA, hmB⟩
  all_goals
    rcases Crawl.step_cases hs with
      ⟨⟨⟩, hd0, hr⟩ | ⟨⟨⟩, hd0, hr⟩ | ⟨⟨⟩, hr⟩ | ⟨e, ⟨⟩, hfe, hr⟩ | ⟨res, ⟨⟩, hfe, hr⟩ |
      ⟨⟨⟩, hr⟩ | ⟨u, rest, ⟨⟩, hv, hr⟩ | ⟨u, rest, ⟨⟩, hv, hr⟩ | ⟨u, rest, ⟨⟩, hr⟩ |
      ⟨u, rest, ⟨⟩, hr⟩ | ⟨⟨⟩, hr⟩
  all_goals clear hs
  all_goals try (exfalso; clear hcount; omega)
  all_goals
    first
    | exact absurd (hmA.symm.trans hv) (by decide)
    | exact absurd (hmB.symm.trans hv) (by decide)
    | (rw [hfA] at hfe; cases hfe)
    | (rw [hfB] at hfe; cases hfe)
    | (rw [hfC] at hfe; cases hfe)
    | (rw [hfD] at hfe; cases hfe)
    | (rw [hfE] at hfe; cases hfe)
    | skip
  all_goals
    simp only [Prod.mk.injEq] at hr
    obtain ⟨rfl, rfl, rfl⟩ := hr
  all_goals
    try simp only at hv
  all_goals
    try simp only [hv, Bool.toNat_true, Bool.toNat_false] at hcount ⊢
  all_goals
    simp only [onUrl, owesB, owesC, owesD, owesE, fetchedOn,
      rootBeforeC, rootBeforeB, pkgBeforeD, pkgBeforeE, List.cons_append, List.nil_append,
      List.mem_cons, List.mem_singleton, List.not_mem_nil, decide_eq_true_eq,
      Bool.or_eq_true, List.countP_nil, List.countP_cons, List.length_nil, List.length_cons,
      List.count_append, List.count_cons, List.count_nil, beq_iff_eq, SafeMarker.Mark,
      true_and, and_true, true_or, or_true, if_true, if_false, reduceCtorEq, ne_eq,
      not_true_eq_false, not_false_eq_true, false_or, or_false, false_and, and_false,
      hAB, hAC, hAD, hAE, hBC, hBD, hBE, hCD, hCE, hDE,
      Ne.symm hAB, Ne.symm hAC, Ne.symm hAD, Ne.symm hAE, Ne.symm hBC, Ne.symm hBD,
      Ne.symm hBE, Ne.symm hCD, Ne.symm hCE, Ne.symm hDE,
      Pc.loop.injEq, Pc.add.injEq, Pc.spawn.injEq, List.cons.injEq,
      Bool.toNat_true, Bool.toNat_false] at hcount ⊢
  all_goals
    obtain ⟨h1, h2, h3, h4, h5, h6, h7, h8, h9, h10, h11, h12, h13, h14⟩ := hcount
    refine ⟨⟨fun t ht => Shape.mono ?_ (hsa t ht), ?_,
      fun t ht => Shape.mono ?_ (hsb t ht), ?_⟩,
      ?_, ?_, ?_, ?_, ?_, ?_, ?_, ?_, ?_, ?_, ?_, ?_, ?_, ?_⟩
    · intro k hk
      first
      | exact hk
      | simp [hk]
    · simp [Shape, rootPcs, rootBeforeC, rootBeforeB, pkgPcs, pkgBeforeE, pkgBeforeD,
        failPcs, subPcs, hAB, hAC, hAD, hAE, hBC, hBD, hBE, hCD, hCE, hDE, hmA, hmB, hd]
    · intro k hk
      first
      | exact hk
      | simp [hk]
    · simp [Shape, rootPcs, rootBeforeC, rootBeforeB, pkgPcs, pkgBeforeE, pkgBeforeD,
        failPcs, subPcs, hAB, hAC, hAD, hAE, hBC, hBD, hBE, hCD, hCE, hDE, hmA, hmB, hd]
    · exact h1
    · first
      | exact h2
      | (clear * - h2 h6 hBa hBb; omega)
    · first
      | exact h3
      | (clear * - h3 h7 hCa hCb; omega)
    · first
      | exact h4
      | (clear * - h4 h8 hDa hDb; omega)
      | (exfalso; clear * - h2 h6 hBa hBb; omega)
    · first
      | exact h5
      | (clear * - h5 h9 hEa hEb; omega)
      | (exfalso; clear * - h2 h6 hBa hBb; omega)
    · first
      | exact h6
      | (clear * - h6; omega)
    · first
      | exact h7
      | (clear * - h7; omega)
    · first
      | exact h8
      | (clear * - h8; omega)
    · first
      | exact h9
      | (clear * - h9; omega)
    · first
      | exact h10
      | (clear * - h10; omega)
    · first
      | exact h11
      | (clear * - h11; omega)
    · first
      | exact h12
      | (clear * - h12; omega)
    · first
      | exact h13
      | (clear * - h13; omega)
    · first
      | exact h14
      | (clear * - h14; omega)

theorem fetcher_canned :
    Canned fetcher.Fetch "https://golang.org/" "https://golang.org/pkg/"
      "https://golang.org/cmd/" "https://golang.org/pkg/fmt/" "https://golang.org/pkg/os/" where
  nodup := by decide
  fetchA := ⟨_, rfl⟩
  fetchB := ⟨_, rfl⟩
  fetchC := ⟨_, rfl⟩
  fetchD := ⟨_, rfl⟩
  fetchE := ⟨_, rfl⟩

theorem Reachable.scene {f : Fetcher} {A B C D E : String} (hc : Canned f A B C D E)
    {s : State} (h : Reachable f A 4 s) : Scene A B C D E s :=
  Reachable.induction (Scene A B C D E) (Scene.init hc)
    (fun _ _ _ hP hs => Scene.step hc hP hs) h

theorem fetchedOn_le_onUrl (u : String) (l : List Task) :
    l.countP (fetchedOn u) ≤ l.countP (onUrl u) :=
  List.countP_mono_left fun t _ h => by
    simp only [onUrl, fetchedOn, decide_eq_true_eq] at h ⊢
    exact h.1

/-- In a pool where every task has finished, the tasks that have fetched `u` are
the tasks of `u`. -/
theorem fetchedOn_eq_onUrl (u : String) (l : List Task)
    (hfin : ∀ t ∈ l, t.pc = .finished) : l.countP (fetchedOn u) = l.countP (onUrl u) :=
  List.countP_congr fun t ht => by
    simp [onUrl, fetchedOn, hfin t ht]

/-- The bounds that hold in every state of a run on canned data. -/
theorem Scene.at_most_once {A B C D E : String} {s : State} (h : Scene A B C D E s) :
    s.shared.fetched.count A ≤ 1 ∧ s.shared.fetched.count B ≤ 1 ∧
    s.shared.fetched.count D ≤ 1 ∧ s.shared.fetched.count E ≤ 1 := by
  obtain ⟨-, h1, h2, -, h4, h5, -, -, -, -, h10, h11, -, h13, h14⟩ := h
  have a1 := fetchedOn_le_onUrl A s.tasks
  have b1 := fetchedOn_le_onUrl B s.tasks
  have d1 := fetchedOn_le_onUrl D s.tasks
  have e1 := fetchedOn_le_onUrl E s.tasks
  have b2 := onUrl_le_owesB A B C s.tasks
  have d2 := onUrl_le_owesD A B C D E s.tasks
  have e2 := onUrl_le_owesE A B C D E s.tasks
  omega

/-- The counts at the end of a complete run on canned data. -/
theorem Scene.exactly_once {A B C D E : String} {s : State} (h : Scene A B C D E s)
    (hfin : ∀ t ∈ s.tasks, t.pc = .finished) :
    s.shared.fetched.count A = 1 ∧ s.shared.fetched.count B = 1 ∧
    s.shared.fetched.count D = 1 ∧ s.shared.fetched.count E = 1 ∧
    1 ≤ s.shared.fetched.count C := by
  obtain ⟨-, h1, h2, h3, h4, h5, -, -, -, -, h10, h11, h12, h13, h14⟩ := h
  have a1 := fetchedOn_eq_onUrl A s.tasks hfin
  have b1 := fetchedOn_eq_onUrl B s.tasks hfin
  have c1 := fetchedOn_eq_onUrl C s.tasks hfin
  have d1 := fetchedOn_eq_onUrl D s.tasks hfin
  have e1 := fetchedOn_eq_onUrl E s.tasks hfin
  have b2 : s.tasks.countP (owesB A B C) = s.tasks.countP (onUrl B) :=
    List.countP_congr fun t ht => by simp [owesB, onUrl, rootBeforeB, hfin t ht]
  have c2 : s.tasks.countP (owesC A B C) = s.tasks.countP (onUrl C) :=
    List.countP_congr fun t ht => by simp [owesC, onUrl, rootBeforeC, rootBeforeB, hfin t ht]
  have d2 : s.tasks.countP (owesD A B C D E) = s.tasks.countP (onUrl D) :=
    List.countP_congr fun t ht => by
      simp [owesD, onUrl, rootBeforeB, pkgBeforeD, hfin t ht]
  have e2 : s.tasks.countP (owesE A B C D E) = s.tasks.countP (onUrl E) :=
    List.countP_congr fun t ht => by
      simp [owesE, onUrl, rootBeforeB, pkgBeforeE, pkgBeforeD, hfin t ht]
  omega

/-- C6, the claim as stated fails: in the complete run of `main` in which the first
call runs to its end, then the task of `/cmd/`, then those of `/pkg/`,
`/pkg/fmt/` and `/pkg/os/`, each url is fetched once; the fetch of `/cmd/` is the
one that fails, and those of `/pkg/fmt/` and `/pkg/os/` succeed. -/
theorem main_cmd_fails_fmt_os_found :
    ∃ s, Reachable fetcher.Fetch "https://golang.org/" 4 s ∧
      (∀ t ∈ s.tasks, t.pc = .finished) ∧
      s.shared.fetched = ["https://golang.org/", "https://golang.org/cmd/",
        "https://golang.org/pkg/", "https://golang.org/pkg/fmt/",
        "https://golang.org/pkg/os/"] ∧
      s.shared.printed = [.found "https://golang.org/" "The Go Programming Language",
        .err "not found: https://golang.org/cmd/",
        .found "https://golang.org/pkg/" "Packages",
        .found "https://golang.org/pkg/fmt/" "Package fmt",
        .found "https://golang.org/pkg/os/" "Package os"] := by
  obtain ⟨s, hs, hf⟩ := Option.map_eq_some'.mp
    (show (State.run fetcher.Fetch
        [0, 0, 0, 0, 0, 0, 0, 0, 0, 0, 0, 2, 2, 2, 2, 1, 1, 1, 1, 1, 1, 1, 1, 1, 1, 1, 1, 1,
         3, 3, 3, 3, 3, 3, 3, 4, 4, 4, 4, 4, 4, 4] main).map
      (fun s => (s.tasks.all (fun t => t.pc = .finished), s.shared.fetched,
        s.shared.printed)) =
      some (true,
        ["https://golang.org/", "https://golang.org/cmd/", "https://golang.org/pkg/",
         "https://golang.org/pkg/fmt/", "https://golang.org/pkg/os/"],
        [.found "https://golang.org/" "The Go Programming Language",
         .err "not found: https://golang.org/cmd/",
         .found "https://golang.org/pkg/" "Packages",
         .found "https://golang.org/pkg/fmt/" "Package fmt",
         .found "https://golang.org/pkg/os/" "Package os"]) by decide)
  simp only [Prod.mk.injEq, List.all_eq_true, decide_eq_true_eq] at hf
  exact ⟨s, ⟨_, hs⟩, hf.1, hf.2.1, hf.2.2⟩

/-- C6, amended: in every run of `main` on the canned data, `Fetch` is never called
more than once on `/`, `/pkg/`, `/pkg/fmt/` or `/pkg/os/`; when all tasks have
finished it has been called exactly once on each of them and at least once on
`/cmd/`; the fetches of the first four succeed and every fetch of `/cmd/` fails
with the not-found error. -/
theorem main_fetch_counts (s : State)
    (h : Reachable fetcher.Fetch "https://golang.org/" 4 s) :
    (s.shared.fetched.count "https://golang.org/" ≤ 1 ∧
      s.shared.fetched.count "https://golang.org/pkg/" ≤ 1 ∧
      s.shared.fetched.count "https://golang.org/pkg/fmt/" ≤ 1 ∧
      s.shared.fetched.count "https://golang.org/pkg/os/" ≤ 1) ∧
    ((∀ t ∈ s.tasks, t.pc = .finished) →
      s.shared.fetched.count "https://golang.org/" = 1 ∧
      s.shared.fetched.count "https://golang.org/pkg/" = 1 ∧
      s.shared.fetched.count "https://golang.org/pkg/fmt/" = 1 ∧
      s.shared.fetched.count "https://golang.org/pkg/os/" = 1 ∧
      1 ≤ s.shared.fetched.count "https://golang.org/cmd/") ∧
    (∃ res, fetcher.Fetch "https://golang.org/" = .ok res) ∧
    (∃ res, fetcher.Fetch "https://golang.org/pkg/" = .ok res) ∧
    (∃ res, fetcher.Fetch "https://golang.org/pkg/fmt/" = .ok res) ∧
    (∃ res, fetcher.Fetch "https://golang.org/pkg/os/" = .ok res) ∧
    fetcher.Fetch "https://golang.org/cmd/" = .error "not found: https://golang.org/cmd/" :=
  ⟨(Reachable.scene fetcher_canned h).at_most_once,
   (Reachable.scene fetcher_canned h).exactly_once,
   ⟨_, rfl⟩, ⟨_, rfl⟩, ⟨_, rfl⟩, ⟨_, rfl⟩, rfl⟩

theorem main_fetch_counts_witness :
    ∃ s, Reachable fetcher.Fetch "https://golang.org/" 4 s ∧
      (∀ t ∈ s.tasks, t.pc = .finished) ∧
      s.shared.fetched.count "https://golang.org/" = 1 ∧
      1 ≤ s.shared.fetched.count "https://golang.org/cmd/" := by
  obtain ⟨s, hs, hf⟩ := Option.map_eq_some'.mp
    (show (State.run fetcher.Fetch
        [0, 0, 0, 0, 0, 0, 0, 0, 0, 0, 0, 1, 1, 1, 1, 1, 1, 1, 1, 1, 1, 1, 1, 1, 1, 1,
         2, 2, 2, 2, 3, 3, 3, 3, 4, 4, 4, 4, 4, 4, 4, 5, 5, 5, 5, 5, 5, 5] main).map
      (fun s => s.tasks.all (fun t => t.pc = .finished)) = some true by decide)
  simp only [List.all_eq_true, decide_eq_true_eq] at hf
  have key := (main_fetch_counts s ⟨_, hs⟩).2.1 hf
  exact ⟨s, ⟨_, hs⟩, hf, key.1, key.2.2.2.2⟩

end Crawler
